import Mathlib

/-!
NvJpegDecoderManager: hardware decoder slot allocator.

Shallow embedding of `orbbec_camera/src/nvjpeg_decoder_manager.cpp` and
`orbbec_camera/include/orbbec_camera/nvjpeg_decoder_manager.h`.

The object has three data members besides its mutex:

* `hw_decoder_cameras_ : std::set<std::string>`, embedded as `Finset String`;
* `active_hw_decoders_ : std::atomic<int>`, embedded as `Int`;
* `max_hw_decoders_ : int`, embedded as `Int`.

Every public method takes `mutex_` for its whole body (except the inline getter),
so a method call is one atomic step on this state; the methods are embedded as
pure functions from the state before the call to the result and the state after
it.  Logging has no effect on the state and is left out.

The counter is only ever incremented under the guard
`active_hw_decoders_ < max_hw_decoders_` and only decremented when the owner set
holds the camera; `active_in_int_range` below shows that on every run whose
capacities are C++ `int` values the counter stays inside `[0, INT_MAX]`, so the
wrap-around of the atomic never occurs and the counter is embedded as an
integer without a modulus.

The constructor is embedded as a function of the content of the model file.
For the claims about the mutex the file has two finer views of the same code:
`events` lists what each method does to the mutex and to the members, and
`threadStep` runs `acquireDecoderSlot` statement by statement for several
threads that share the manager and the mutex; `thread_alone_refines_acquire`
shows that a thread running alone computes `acquireDecoderSlot`.
-/

namespace orbbec_camera

/-- Data members of `class NvJpegDecoderManager` (the mutex apart). -/
structure NvJpegDecoderManager where
  hw_decoder_cameras_ : Finset String
  active_hw_decoders_ : Int
  max_hw_decoders_ : Int
deriving DecidableEq

/-- State right after construction: the in-class initialisers give an empty
owner set and a zero counter; the constructor leaves `max_hw_decoders_` at the
value `capacity` chosen by the platform detection. -/
def initial (capacity : Int) : NvJpegDecoderManager :=
  { hw_decoder_cameras_ := ∅, active_hw_decoders_ := 0, max_hw_decoders_ := capacity }

/-- Embedding of `NvJpegDecoderManager::acquireDecoderSlot`: the returned
boolean and the state after the call. -/
def acquireDecoderSlot (m : NvJpegDecoderManager) (camera_name : String) :
    Bool × NvJpegDecoderManager :=
  if camera_name ∈ m.hw_decoder_cameras_ then
    (true, m)
  else if m.active_hw_decoders_ < m.max_hw_decoders_ then
    (true, { m with
      hw_decoder_cameras_ := insert camera_name m.hw_decoder_cameras_
      active_hw_decoders_ := m.active_hw_decoders_ + 1 })
  else
    (false, m)

/-- Embedding of `NvJpegDecoderManager::releaseDecoderSlot`: the state after the
call. -/
def releaseDecoderSlot (m : NvJpegDecoderManager) (camera_name : String) :
    NvJpegDecoderManager :=
  if camera_name ∈ m.hw_decoder_cameras_ then
    { m with
      hw_decoder_cameras_ := m.hw_decoder_cameras_.erase camera_name
      active_hw_decoders_ := m.active_hw_decoders_ - 1 }
  else
    m

/-- Embedding of `NvJpegDecoderManager::isHardwareDecodingAvailable`, a `const`
method: the returned boolean. -/
def isHardwareDecodingAvailable (m : NvJpegDecoderManager) (camera_name : String) : Bool :=
  decide (camera_name ∈ m.hw_decoder_cameras_)

/-- Embedding of the inline `const` getter `getMaxHardwareDecoders`. -/
def getMaxHardwareDecoders (m : NvJpegDecoderManager) : Int :=
  m.max_hw_decoders_

/-- Embedding of `NvJpegDecoderManager::setMaxHardwareDecoders`: the state after
the call. -/
def setMaxHardwareDecoders (m : NvJpegDecoderManager) (max_decoders : Int) :
    NvJpegDecoderManager :=
  { m with max_hw_decoders_ := max_decoders }

/-- One call of a public method of the manager, with its argument. -/
inductive Call where
  | acquire (camera_name : String)
  | release (camera_name : String)
  | isAvailable (camera_name : String)
  | getMax
  | setMax (max_decoders : Int)
deriving DecidableEq

/-- State after one call.  The two `const` methods leave the data members
untouched. -/
def step (m : NvJpegDecoderManager) : Call → NvJpegDecoderManager
  | Call.acquire x => (acquireDecoderSlot m x).2
  | Call.release x => releaseDecoderSlot m x
  | Call.isAvailable _ => m
  | Call.getMax => m
  | Call.setMax n => setMaxHardwareDecoders m n

/-- State after a finite sequence of calls, performed in order. -/
def run (m : NvJpegDecoderManager) (calls : List Call) : NvJpegDecoderManager :=
  calls.foldl step m

/-- Results of calling `acquireDecoderSlot` for each camera of a list in order,
with the state after the last call. -/
def acquireAll (m : NvJpegDecoderManager) : List String → List Bool × NvJpegDecoderManager
  | [] => ([], m)
  | x :: xs =>
    ((acquireDecoderSlot m x).1 :: (acquireAll (acquireDecoderSlot m x).2 xs).1,
      (acquireAll (acquireDecoderSlot m x).2 xs).2)

/-- A sequence of calls, started in state `m`, in which no `setMaxHardwareDecoders`
call passes a value below the active count current at that call. -/
def respectsUsage (m : NvJpegDecoderManager) : List Call → Bool
  | [] => true
  | Call.setMax n :: cs =>
    decide (m.active_hw_decoders_ ≤ n) && respectsUsage (step m (Call.setMax n)) cs
  | c :: cs => respectsUsage (step m c) cs

/-- The round-trip property for state `m` and camera `x`: after
`acquireDecoderSlot x` followed by `releaseDecoderSlot x` the active count and
the holding status of every camera are what they were in `m`. -/
def roundTripRestores (m : NvJpegDecoderManager) (x : String) : Prop :=
  (releaseDecoderSlot (acquireDecoderSlot m x).2 x).active_hw_decoders_
      = m.active_hw_decoders_ ∧
  ∀ y : String,
    isHardwareDecodingAvailable (releaseDecoderSlot (acquireDecoderSlot m x).2 x) y
      = isHardwareDecodingAvailable m y

/-- Largest value of a C++ `int` on the supported platforms. -/
def INT_MAX : Int := 2147483647

/-- The counter mirrors the size of the owner set. -/
def countMatches (m : NvJpegDecoderManager) : Prop :=
  (m.hw_decoder_cameras_.card : Int) = m.active_hw_decoders_

/-- Calls of `acquireDecoderSlot` and `releaseDecoderSlot`. -/
def Call.isAcquireOrRelease : Call → Bool
  | Call.acquire _ => true
  | Call.release _ => true
  | _ => false

/-- Values returned by the `acquireDecoderSlot` calls of a sequence of calls
started in state `m`, in the order of the calls. -/
def acquireResults (m : NvJpegDecoderManager) : List Call → List Bool
  | [] => []
  | Call.acquire x :: cs => (acquireDecoderSlot m x).1 :: acquireResults (step m (Call.acquire x)) cs
  | c :: cs => acquireResults (step m c) cs

/-- Largest capacity in effect so far along a sequence of calls: the initial
capacity and every value passed to `setMaxHardwareDecoders`, taken as 0 when
all of them are negative. -/
def largestCapacity (capacity : Int) (calls : List Call) : Int :=
  calls.foldl
    (fun acc c =>
      match c with
      | Call.setMax n => max acc n
      | _ => acc)
    (max 0 capacity)

/-- Search of `pat` in the characters `s`, the first of which has index `pos`:
the index of the first occurrence, or `none` when there is none. -/
def findFrom (pat : List Char) : List Char → Nat → Option Nat
  | [], pos => if pat.isPrefixOf [] then some pos else none
  | c :: cs, pos => if pat.isPrefixOf (c :: cs) then some pos else findFrom pat cs (pos + 1)

/-- Embedding of `std::string::find` with a string argument: the position of the
first occurrence of `pat` in `s`; `none` stands for `std::string::npos`. -/
def string_find (s pat : String) : Option Nat :=
  findFrom pat.toList s.toList 0

/-- Embedding of `std::getline` on a freshly opened stream with the given
content: the characters before the first line feed. -/
def getline (content : String) : String :=
  String.mk (content.toList.takeWhile (fun c => c != Char.ofNat 10))

/-- Embedding of the constructor `NvJpegDecoderManager::NvJpegDecoderManager`.
The argument is the content of `/proc/device-tree/model`, or `none` when the
file cannot be opened; in that case `max_hw_decoders_` keeps its in-class
initialiser 1. -/
def NvJpegDecoderManager.NvJpegDecoderManager (devicetree : Option String) :
    NvJpegDecoderManager :=
  match devicetree with
  | some content =>
    if (string_find (getline content) "Orin").isSome then
      { hw_decoder_cameras_ := ∅, active_hw_decoders_ := 0, max_hw_decoders_ := 2 }
    else if (string_find (getline content) "Xavier").isSome then
      { hw_decoder_cameras_ := ∅, active_hw_decoders_ := 0, max_hw_decoders_ := 2 }
    else if (string_find (getline content) "Nano").isSome
        || (string_find (getline content) "TX2").isSome then
      { hw_decoder_cameras_ := ∅, active_hw_decoders_ := 0, max_hw_decoders_ := 1 }
    else
      { hw_decoder_cameras_ := ∅, active_hw_decoders_ := 0, max_hw_decoders_ := 1 }
  | none =>
    { hw_decoder_cameras_ := ∅, active_hw_decoders_ := 0, max_hw_decoders_ := 1 }

/-- Data members of the class that the methods read and write. -/
inductive Member where
  | hw_decoder_cameras_
  | active_hw_decoders_
  | max_hw_decoders_
deriving DecidableEq

/-- What a method does to `mutex_` and to the data members, in program order. -/
inductive Event where
  | lock
  | unlock
  | read (member : Member)
  | write (member : Member)
deriving DecidableEq

/-- Events of one call of a public method in state `m`, statement by statement:
the `std::lock_guard` at the top of a body is a `lock`, its destruction at the
return an `unlock`; the log statements read the members they print.  The inline
getter `getMaxHardwareDecoders` has the single statement
`return max_hw_decoders_;`. -/
def events (m : NvJpegDecoderManager) : Call → List Event
  | Call.acquire x =>
    if x ∈ m.hw_decoder_cameras_ then
      [Event.lock, Event.read Member.hw_decoder_cameras_, Event.unlock]
    else if m.active_hw_decoders_ < m.max_hw_decoders_ then
      [Event.lock, Event.read Member.hw_decoder_cameras_,
        Event.read Member.active_hw_decoders_, Event.read Member.max_hw_decoders_,
        Event.write Member.hw_decoder_cameras_, Event.write Member.active_hw_decoders_,
        Event.read Member.active_hw_decoders_, Event.read Member.max_hw_decoders_,
        Event.unlock]
    else
      [Event.lock, Event.read Member.hw_decoder_cameras_,
        Event.read Member.active_hw_decoders_, Event.read Member.max_hw_decoders_,
        Event.read Member.active_hw_decoders_, Event.read Member.max_hw_decoders_,
        Event.unlock]
  | Call.release x =>
    if x ∈ m.hw_decoder_cameras_ then
      [Event.lock, Event.read Member.hw_decoder_cameras_,
        Event.write Member.hw_decoder_cameras_, Event.write Member.active_hw_decoders_,
        Event.read Member.active_hw_decoders_, Event.read Member.max_hw_decoders_,
        Event.unlock]
    else
      [Event.lock, Event.read Member.hw_decoder_cameras_, Event.unlock]
  | Call.isAvailable _ =>
    [Event.lock, Event.read Member.hw_decoder_cameras_, Event.unlock]
  | Call.getMax =>
    [Event.read Member.max_hw_decoders_]
  | Call.setMax _ =>
    [Event.lock, Event.write Member.max_hw_decoders_, Event.read Member.max_hw_decoders_,
      Event.unlock]

/-- Every read and write of `member` in the event sequence happens while the
mutex is held; `held` says whether it is held before the first event. -/
def accessesUnderLock (member : Member) : Bool → List Event → Bool
  | _, [] => true
  | _, Event.lock :: es => accessesUnderLock member true es
  | _, Event.unlock :: es => accessesUnderLock member false es
  | held, Event.read g :: es => (decide (g ≠ member) || held) && accessesUnderLock member held es
  | held, Event.write g :: es => (decide (g ≠ member) || held) && accessesUnderLock member held es

/-- Program points of a thread inside `acquireDecoderSlot`, one per statement
that touches the mutex or a data member. -/
inductive Pc where
  | start
  | locked
  | checked
  | room
  | inserted
  | leaving (result : Bool)
  | done (result : Bool)
deriving DecidableEq

/-- The shared manager, whether `mutex_` is locked, and the program point of
each of `n` threads that call `acquireDecoderSlot` once. -/
structure Threads (n : Nat) where
  shared : NvJpegDecoderManager
  mutex_ : Bool
  pc : Fin n → Pc
deriving DecidableEq

/-- All threads about to call, on a freshly constructed manager. -/
def startThreads (n : Nat) (capacity : Int) : Threads n :=
  { shared := initial capacity, mutex_ := false, pc := fun _ => Pc.start }

/-- One step of thread `i`, which calls `acquireDecoderSlot (cams i)`; `none`
when the thread cannot move (it waits for the mutex, or it has returned).
In source order: the `std::lock_guard` takes the mutex when it is free; the
`find` test; the comparison of `active_hw_decoders_` with `max_hw_decoders_`;
the `insert`; the `++`; the return, which destroys the guard and frees the
mutex. -/
def threadStep {n : Nat} (cams : Fin n → String) (t : Threads n) (i : Fin n) :
    Option (Threads n) :=
  match t.pc i with
  | Pc.start =>
    if t.mutex_ then none
    else some { t with mutex_ := true, pc := Function.update t.pc i Pc.locked }
  | Pc.locked =>
    if cams i ∈ t.shared.hw_decoder_cameras_ then
      some { t with pc := Function.update t.pc i (Pc.leaving true) }
    else
      some { t with pc := Function.update t.pc i Pc.checked }
  | Pc.checked =>
    if t.shared.active_hw_decoders_ < t.shared.max_hw_decoders_ then
      some { t with pc := Function.update t.pc i Pc.room }
    else
      some { t with pc := Function.update t.pc i (Pc.leaving false) }
  | Pc.room =>
    some { t with
      shared := { t.shared with
        hw_decoder_cameras_ := insert (cams i) t.shared.hw_decoder_cameras_ }
      pc := Function.update t.pc i Pc.inserted }
  | Pc.inserted =>
    some { t with
      shared := { t.shared with active_hw_decoders_ := t.shared.active_hw_decoders_ + 1 }
      pc := Function.update t.pc i (Pc.leaving true) }
  | Pc.leaving r =>
    some { t with mutex_ := false, pc := Function.update t.pc i (Pc.done r) }
  | Pc.done _ => none

/-- Execution of a schedule, a list of thread indices each taking one step;
`none` when a scheduled thread cannot move. -/
def execute {n : Nat} (cams : Fin n → String) (t : Threads n) :
    List (Fin n) → Option (Threads n)
  | [] => some t
  | i :: sched => (threadStep cams t i).bind (fun t2 => execute cams t2 sched)

/-- The thread has returned. -/
def Pc.returned : Pc → Bool
  | Pc.done _ => true
  | _ => false

/-- Every thread has returned. -/
def allReturned {n : Nat} (t : Threads n) : Bool :=
  decide (∀ i, (t.pc i).returned = true)

/-- Threads whose call returned true. -/
def granted {n : Nat} (t : Threads n) : Finset (Fin n) :=
  Finset.univ.filter (fun i => t.pc i = Pc.done true)

/-- Threads whose call returned false. -/
def denied {n : Nat} (t : Threads n) : Finset (Fin n) :=
  Finset.univ.filter (fun i => t.pc i = Pc.done false)

/-- The thread is between taking and freeing the mutex. -/
def Pc.inCritical : Pc → Bool
  | Pc.start => false
  | Pc.done _ => false
  | _ => true

/-- The thread has put its camera into the owner set. -/
def Pc.hasInserted : Pc → Bool
  | Pc.inserted => true
  | Pc.leaving true => true
  | Pc.done true => true
  | _ => false

/-- The thread has incremented the counter. -/
def Pc.counted : Pc → Bool
  | Pc.leaving true => true
  | Pc.done true => true
  | _ => false

/-- The thread found no free slot. -/
def Pc.refused : Pc → Bool
  | Pc.leaving false => true
  | Pc.done false => true
  | _ => false

/-- Upper bound on the number of steps the thread can still take. -/
def Pc.remaining : Pc → Nat
  | Pc.start => 6
  | Pc.locked => 5
  | Pc.checked => 4
  | Pc.room => 3
  | Pc.inserted => 2
  | Pc.leaving _ => 1
  | Pc.done _ => 0

/-- What holds of the threads in every configuration reached from
`startThreads n capacity` when the cameras are pairwise distinct. -/
structure ThreadsInv {n : Nat} (cams : Fin n → String) (capacity : Int) (t : Threads n) :
    Prop where
  cap : t.shared.max_hw_decoders_ = capacity
  mutex_iff : t.mutex_ = true ↔ ∃ i, (t.pc i).inCritical = true
  excl : ∀ i j, (t.pc i).inCritical = true → (t.pc j).inCritical = true → i = j
  owners : t.shared.hw_decoder_cameras_
    = (Finset.univ.filter (fun i => (t.pc i).hasInserted = true)).image cams
  active : t.shared.active_hw_decoders_
    = ((Finset.univ.filter (fun i => (t.pc i).counted = true)).card : Int)
  le_cap : t.shared.active_hw_decoders_ ≤ capacity
  lt_cap : ∀ i, t.pc i = Pc.room ∨ t.pc i = Pc.inserted →
    t.shared.active_hw_decoders_ < capacity
  full : ∀ i, (t.pc i).refused = true → capacity ≤ t.shared.active_hw_decoders_

/-- Upper bound on the number of steps all threads together can still take. -/
def stepsLeft {n : Nat} (t : Threads n) : Nat :=
  ∑ i, (t.pc i).remaining

/-- Two threads, for the cameras "cam1" and "cam2". -/
def twoCameras : Fin 2 → String :=
  fun i => if i = 0 then "cam1" else "cam2"

/-- The second thread runs its call to the end, then the first does. -/
def secondThenFirst : List (Fin 2) :=
  [1, 1, 1, 1, 1, 1, 0, 0, 0, 0]

/-- Configuration reached by `secondThenFirst` against capacity 1. -/
def secondThenFirstEnd : Threads 2 :=
  (execute twoCameras (startThreads 2 1) secondThenFirst).getD (startThreads 2 1)

/-! Case lemmas for the two mutating methods. -/

theorem acquire_of_mem {m : NvJpegDecoderManager} {x : String}
    (hx : x ∈ m.hw_decoder_cameras_) : acquireDecoderSlot m x = (true, m) := by
  simp [acquireDecoderSlot, hx]

theorem acquire_of_room {m : NvJpegDecoderManager} {x : String}
    (hx : x ∉ m.hw_decoder_cameras_) (hc : m.active_hw_decoders_ < m.max_hw_decoders_) :
    acquireDecoderSlot m x =
      (true, { m with
        hw_decoder_cameras_ := insert x m.hw_decoder_cameras_
        active_hw_decoders_ := m.active_hw_decoders_ + 1 }) := by
  simp [acquireDecoderSlot, hx, hc]

theorem acquire_of_full {m : NvJpegDecoderManager} {x : String}
    (hx : x ∉ m.hw_decoder_cameras_) (hc : ¬ m.active_hw_decoders_ < m.max_hw_decoders_) :
    acquireDecoderSlot m x = (false, m) := by
  simp [acquireDecoderSlot, hx, hc]

theorem release_of_mem {m : NvJpegDecoderManager} {x : String}
    (hx : x ∈ m.hw_decoder_cameras_) :
    releaseDecoderSlot m x =
      { m with
        hw_decoder_cameras_ := m.hw_decoder_cameras_.erase x
        active_hw_decoders_ := m.active_hw_decoders_ - 1 } := by
  simp [releaseDecoderSlot, hx]

theorem release_of_not_mem {m : NvJpegDecoderManager} {x : String}
    (hx : x ∉ m.hw_decoder_cameras_) : releaseDecoderSlot m x = m := by
  simp [releaseDecoderSlot, hx]

theorem run_cons (m : NvJpegDecoderManager) (c : Call) (cs : List Call) :
    run m (c :: cs) = run (step m c) cs := rfl

/-! Preservation of `countMatches`. -/

theorem countMatches_acquire {m : NvJpegDecoderManager} (x : String) (h : countMatches m) :
    countMatches (acquireDecoderSlot m x).2 := by
  unfold countMatches at *
  by_cases hx : x ∈ m.hw_decoder_cameras_
  · rw [acquire_of_mem hx]; exact h
  · by_cases hc : m.active_hw_decoders_ < m.max_hw_decoders_
    · rw [acquire_of_room hx hc]
      simp only [Finset.card_insert_of_not_mem hx]
      push_cast
      omega
    · rw [acquire_of_full hx hc]; exact h

theorem countMatches_release {m : NvJpegDecoderManager} (x : String) (h : countMatches m) :
    countMatches (releaseDecoderSlot m x) := by
  unfold countMatches at *
  by_cases hx : x ∈ m.hw_decoder_cameras_
  · rw [release_of_mem hx]
    have hcard := Finset.card_erase_add_one hx
    simp only
    omega
  · rw [release_of_not_mem hx]; exact h

theorem countMatches_step {m : NvJpegDecoderManager} (c : Call) (h : countMatches m) :
    countMatches (step m c) := by
  cases c with
  | acquire x => exact countMatches_acquire x h
  | release x => exact countMatches_release x h
  | isAvailable x => exact h
  | getMax => exact h
  | setMax n => exact h

theorem countMatches_run (calls : List Call) :
    ∀ m : NvJpegDecoderManager, countMatches m → countMatches (run m calls) := by
  induction calls with
  | nil => intro m h; exact h
  | cons c cs ih => intro m h; rw [run_cons]; exact ih _ (countMatches_step c h)

theorem countMatches_initial (capacity : Int) : countMatches (initial capacity) := by
  simp [countMatches, initial]

/-! Preservation of the capacity bound along sequences that respect the usage. -/

theorem bound_acquire {m : NvJpegDecoderManager} (x : String)
    (h : m.active_hw_decoders_ ≤ m.max_hw_decoders_) :
    (acquireDecoderSlot m x).2.active_hw_decoders_
      ≤ (acquireDecoderSlot m x).2.max_hw_decoders_ := by
  by_cases hx : x ∈ m.hw_decoder_cameras_
  · rw [acquire_of_mem hx]; exact h
  · by_cases hc : m.active_hw_decoders_ < m.max_hw_decoders_
    · rw [acquire_of_room hx hc]
      simp only
      omega
    · rw [acquire_of_full hx hc]; exact h

theorem bound_release {m : NvJpegDecoderManager} (x : String)
    (h : m.active_hw_decoders_ ≤ m.max_hw_decoders_) :
    (releaseDecoderSlot m x).active_hw_decoders_
      ≤ (releaseDecoderSlot m x).max_hw_decoders_ := by
  by_cases hx : x ∈ m.hw_decoder_cameras_
  · rw [release_of_mem hx]
    simp only
    omega
  · rw [release_of_not_mem hx]; exact h

theorem bound_run (calls : List Call) :
    ∀ m : NvJpegDecoderManager, m.active_hw_decoders_ ≤ m.max_hw_decoders_ →
      respectsUsage m calls = true →
      (run m calls).active_hw_decoders_ ≤ (run m calls).max_hw_decoders_ := by
  induction calls with
  | nil => intro m h _; exact h
  | cons c cs ih =>
    intro m h hr
    rw [run_cons]
    cases c with
    | acquire x => exact ih _ (bound_acquire x h) (by simpa [respectsUsage] using hr)
    | release x => exact ih _ (bound_release x h) (by simpa [respectsUsage] using hr)
    | isAvailable x => exact ih _ h (by simpa [respectsUsage] using hr)
    | getMax => exact ih _ h (by simpa [respectsUsage] using hr)
    | setMax n =>
      simp only [respectsUsage, Bool.and_eq_true, decide_eq_true_eq] at hr
      exact ih _ hr.1 hr.2

theorem active_nonneg_of_countMatches {m : NvJpegDecoderManager} (h : countMatches m) :
    0 ≤ m.active_hw_decoders_ := by
  unfold countMatches at h
  omega

/-! The counter stays a C++ `int`: when the initial capacity and every value
passed to `setMaxHardwareDecoders` are at most `INT_MAX`, every reached state has
its counter in `[0, INT_MAX]`, so neither `++` nor `--` on the atomic wraps. -/

theorem int_range_step {m : NvJpegDecoderManager} (c : Call)
    (hc : ∀ n : Int, c = Call.setMax n → n ≤ INT_MAX)
    (h : m.active_hw_decoders_ ≤ INT_MAX ∧ m.max_hw_decoders_ ≤ INT_MAX) :
    (step m c).active_hw_decoders_ ≤ INT_MAX ∧ (step m c).max_hw_decoders_ ≤ INT_MAX := by
  cases c with
  | acquire x =>
    simp only [step]
    by_cases hx : x ∈ m.hw_decoder_cameras_
    · rw [acquire_of_mem hx]; exact h
    · by_cases hlt : m.active_hw_decoders_ < m.max_hw_decoders_
      · rw [acquire_of_room hx hlt]
        simp only
        omega
      · rw [acquire_of_full hx hlt]; exact h
  | release x =>
    simp only [step]
    by_cases hx : x ∈ m.hw_decoder_cameras_
    · rw [release_of_mem hx]
      simp only
      omega
    · rw [release_of_not_mem hx]; exact h
  | isAvailable x => exact h
  | getMax => exact h
  | setMax n => exact ⟨h.1, hc n rfl⟩

theorem int_range_run (calls : List Call) :
    ∀ m : NvJpegDecoderManager,
      (∀ c ∈ calls, ∀ n : Int, c = Call.setMax n → n ≤ INT_MAX) →
      m.active_hw_decoders_ ≤ INT_MAX ∧ m.max_hw_decoders_ ≤ INT_MAX →
      (run m calls).active_hw_decoders_ ≤ INT_MAX := by
  induction calls with
  | nil => intro m _ h; exact h.1
  | cons c cs ih =>
    intro m hc h
    rw [run_cons]
    exact ih _ (fun d hd => hc d (List.mem_cons_of_mem c hd))
      (int_range_step c (hc c (List.mem_cons_self c cs)) h)

theorem active_in_int_range (capacity : Int) (calls : List Call)
    (hcap : capacity ≤ INT_MAX)
    (hc : ∀ c ∈ calls, ∀ n : Int, c = Call.setMax n → n ≤ INT_MAX) :
    0 ≤ (run (initial capacity) calls).active_hw_decoders_ ∧
    (run (initial capacity) calls).active_hw_decoders_ ≤ INT_MAX :=
  ⟨active_nonneg_of_countMatches (countMatches_run calls _ (countMatches_initial capacity)),
    int_range_run calls _ hc ⟨by simp [initial, INT_MAX], hcap⟩⟩

/-! Acquiring for a list of cameras none of which holds a slot. -/

theorem acquireAll_cons (m : NvJpegDecoderManager) (x : String) (xs : List String) :
    acquireAll m (x :: xs) =
      ((acquireDecoderSlot m x).1 :: (acquireAll (acquireDecoderSlot m x).2 xs).1,
        (acquireAll (acquireDecoderSlot m x).2 xs).2) := rfl

theorem acquireAll_fresh (l : List String) :
    ∀ (m : NvJpegDecoderManager) (k : Nat), l.Nodup →
      (∀ x ∈ l, x ∉ m.hw_decoder_cameras_) →
      m.active_hw_decoders_ + k = m.max_hw_decoders_ →
      (acquireAll m l).1
        = List.replicate (min k l.length) true ++ List.replicate (l.length - k) false ∧
      (acquireAll m l).2.hw_decoder_cameras_
        = m.hw_decoder_cameras_ ∪ (l.take k).toFinset ∧
      (acquireAll m l).2.active_hw_decoders_
        = m.active_hw_decoders_ + ((min k l.length : Nat) : Int) ∧
      (acquireAll m l).2.max_hw_decoders_ = m.max_hw_decoders_ := by
  induction l with
  | nil => intro m k _ _ _; simp [acquireAll]
  | cons x xs ih =>
    intro m k hnd hfresh hk
    have hx : x ∉ m.hw_decoder_cameras_ := hfresh x (List.mem_cons_self x xs)
    have hnd2 : xs.Nodup := (List.nodup_cons.mp hnd).2
    have hxs : x ∉ xs := (List.nodup_cons.mp hnd).1
    rw [acquireAll_cons]
    cases k with
    | zero =>
      have hfull : ¬ m.active_hw_decoders_ < m.max_hw_decoders_ := by
        simp only [Nat.cast_zero, add_zero] at hk
        omega
      rw [acquire_of_full hx hfull]
      obtain ⟨h1, h2, h3, h4⟩ :=
        ih m 0 hnd2 (fun y hy => hfresh y (List.mem_cons_of_mem x hy)) hk
      refine ⟨?_, ?_, ?_, h4⟩
      · simp only [h1]
        simp [List.replicate_succ]
      · simpa using h2
      · simpa using h3
    | succ k =>
      have hroom : m.active_hw_decoders_ < m.max_hw_decoders_ := by
        push_cast at hk
        omega
      rw [acquire_of_room hx hroom]
      obtain ⟨h1, h2, h3, h4⟩ :=
        ih { m with
            hw_decoder_cameras_ := insert x m.hw_decoder_cameras_
            active_hw_decoders_ := m.active_hw_decoders_ + 1 } k hnd2
          (fun y hy => by
            simp only [Finset.mem_insert, not_or]
            exact ⟨fun hyx => hxs (hyx ▸ hy), hfresh y (List.mem_cons_of_mem x hy)⟩)
          (by simp only; push_cast at hk; omega)
      refine ⟨?_, ?_, ?_, h4⟩
      · simp only [h1]
        simp [List.replicate_succ, Nat.succ_min_succ]
      · simp only [h2]
        ext y
        simp
      · simp only [h3, List.length_cons, Nat.succ_min_succ]
        push_cast
        omega


/-! Frame lemmas: what one call does to the holding status of a camera and to
the capacity. -/

theorem mem_acquire_iff (m : NvJpegDecoderManager) (x y : String) :
    y ∈ (acquireDecoderSlot m x).2.hw_decoder_cameras_ ↔
      y ∈ m.hw_decoder_cameras_ ∨ (y = x ∧ (acquireDecoderSlot m x).1 = true) := by
  by_cases hx : x ∈ m.hw_decoder_cameras_
  · rw [acquire_of_mem hx]
    constructor
    · intro h; exact Or.inl h
    · rintro (h | ⟨rfl, _⟩)
      · exact h
      · exact hx
  · by_cases hc : m.active_hw_decoders_ < m.max_hw_decoders_
    · rw [acquire_of_room hx hc]
      simp only [Finset.mem_insert, and_true]
      tauto
    · rw [acquire_of_full hx hc]
      simp

theorem mem_release_iff (m : NvJpegDecoderManager) (x y : String) :
    y ∈ (releaseDecoderSlot m x).hw_decoder_cameras_ ↔ y ≠ x ∧ y ∈ m.hw_decoder_cameras_ := by
  by_cases hx : x ∈ m.hw_decoder_cameras_
  · rw [release_of_mem hx]
    simp [Finset.mem_erase]
  · rw [release_of_not_mem hx]
    constructor
    · intro h; exact ⟨fun hyx => hx (hyx ▸ h), h⟩
    · intro h; exact h.2

theorem mem_step_of_mem {m : NvJpegDecoderManager} {x : String} (c : Call)
    (hx : x ∈ m.hw_decoder_cameras_) (hc : c ≠ Call.release x) :
    x ∈ (step m c).hw_decoder_cameras_ := by
  cases c with
  | acquire y => exact (mem_acquire_iff m y x).mpr (Or.inl hx)
  | release y =>
    refine (mem_release_iff m y x).mpr ⟨fun hxy => hc (by rw [hxy]), hx⟩
  | isAvailable y => exact hx
  | getMax => exact hx
  | setMax n => exact hx

theorem mem_run_of_mem (cs : List Call) :
    ∀ (m : NvJpegDecoderManager) (x : String), x ∈ m.hw_decoder_cameras_ →
      Call.release x ∉ cs → x ∈ (run m cs).hw_decoder_cameras_ := by
  induction cs with
  | nil => intro m x hx _; exact hx
  | cons c cs ih =>
    intro m x hx hrel
    rw [run_cons]
    refine ih _ x (mem_step_of_mem c hx ?_) (fun h => hrel (List.mem_cons_of_mem c h))
    intro hc
    exact hrel (hc ▸ List.mem_cons_self c cs)

theorem max_acquire (m : NvJpegDecoderManager) (x : String) :
    (acquireDecoderSlot m x).2.max_hw_decoders_ = m.max_hw_decoders_ := by
  unfold acquireDecoderSlot
  split_ifs <;> rfl

theorem max_release (m : NvJpegDecoderManager) (x : String) :
    (releaseDecoderSlot m x).max_hw_decoders_ = m.max_hw_decoders_ := by
  unfold releaseDecoderSlot
  split_ifs <;> rfl

theorem max_step (m : NvJpegDecoderManager) (c : Call) (hc : c.isAcquireOrRelease = true) :
    (step m c).max_hw_decoders_ = m.max_hw_decoders_ := by
  cases c with
  | acquire x => exact max_acquire m x
  | release x => exact max_release m x
  | isAvailable x => simp [Call.isAcquireOrRelease] at hc
  | getMax => simp [Call.isAcquireOrRelease] at hc
  | setMax n => simp [Call.isAcquireOrRelease] at hc

theorem max_run (cs : List Call) :
    ∀ m : NvJpegDecoderManager, (∀ c ∈ cs, c.isAcquireOrRelease = true) →
      (run m cs).max_hw_decoders_ = m.max_hw_decoders_ := by
  induction cs with
  | nil => intro m _; rfl
  | cons c cs ih =>
    intro m h
    rw [run_cons, ih _ (fun d hd => h d (List.mem_cons_of_mem c hd)),
      max_step m c (h c (List.mem_cons_self c cs))]

theorem acquire_denied {m : NvJpegDecoderManager} {x : String}
    (hx : x ∉ m.hw_decoder_cameras_) (hc : m.max_hw_decoders_ ≤ m.active_hw_decoders_) :
    acquireDecoderSlot m x = (false, m) :=
  acquire_of_full hx (not_lt.mpr hc)

/-! The active count never exceeds the largest capacity that has been in
effect. -/

theorem largest_step {m : NvJpegDecoderManager} {bound : Int} (c : Call)
    (h : m.active_hw_decoders_ ≤ bound ∧ m.max_hw_decoders_ ≤ bound) :
    (step m c).active_hw_decoders_
        ≤ (match c with
          | Call.setMax n => max bound n
          | _ => bound) ∧
    (step m c).max_hw_decoders_
        ≤ (match c with
          | Call.setMax n => max bound n
          | _ => bound) := by
  cases c with
  | acquire x =>
    simp only [step]
    by_cases hx : x ∈ m.hw_decoder_cameras_
    · rw [acquire_of_mem hx]; exact h
    · by_cases hlt : m.active_hw_decoders_ < m.max_hw_decoders_
      · rw [acquire_of_room hx hlt]
        simp only
        omega
      · rw [acquire_of_full hx hlt]; exact h
  | release x =>
    simp only [step]
    by_cases hx : x ∈ m.hw_decoder_cameras_
    · rw [release_of_mem hx]
      simp only
      omega
    · rw [release_of_not_mem hx]; exact h
  | isAvailable x => exact h
  | getMax => exact h
  | setMax n =>
    simp only [step, setMaxHardwareDecoders]
    exact ⟨le_trans h.1 (le_max_left _ _), le_max_right _ _⟩

theorem largest_run (calls : List Call) :
    ∀ (m : NvJpegDecoderManager) (bound : Int),
      m.active_hw_decoders_ ≤ bound ∧ m.max_hw_decoders_ ≤ bound →
      (run m calls).active_hw_decoders_
        ≤ calls.foldl
            (fun acc c =>
              match c with
              | Call.setMax n => max acc n
              | _ => acc)
            bound := by
  induction calls with
  | nil => intro m bound h; exact h.1
  | cons c cs ih =>
    intro m bound h
    rw [run_cons, List.foldl_cons]
    exact ih _ _ (largest_step c h)

theorem run_append (m : NvJpegDecoderManager) (cs ds : List Call) :
    run m (cs ++ ds) = run (run m cs) ds := by
  simp [run, List.foldl_append]

theorem run_replicate_acquire {m : NvJpegDecoderManager} {x : String}
    (hx : x ∈ m.hw_decoder_cameras_) (k : Nat) :
    run m (List.replicate k (Call.acquire x)) = m := by
  induction k with
  | zero => rfl
  | succ k ih =>
    rw [List.replicate_succ, run_cons]
    simp only [step, acquire_of_mem hx]
    exact ih

/-! `string_find` finds a pattern exactly when it occurs as a contiguous
substring. -/

theorem findFrom_isSome_iff (pat : List Char) (s : List Char) :
    ∀ pos : Nat, (findFrom pat s pos).isSome = true ↔ pat <:+: s := by
  induction s with
  | nil =>
    intro pos
    unfold findFrom
    split_ifs with hp
    · simp only [Option.isSome_some, true_iff]
      exact (List.isPrefixOf_iff_prefix.mp hp).isInfix
    · simp only [Option.isSome_none, Bool.false_eq_true, false_iff]
      intro hinf
      exact hp (List.isPrefixOf_iff_prefix.mpr (List.infix_nil.mp hinf ▸ List.prefix_refl _))
  | cons c cs ih =>
    intro pos
    unfold findFrom
    split_ifs with hp
    · simp only [Option.isSome_some, true_iff]
      exact (List.isPrefixOf_iff_prefix.mp hp).isInfix
    · rw [ih (pos + 1), List.infix_cons_iff]
      constructor
      · intro h; exact Or.inr h
      · rintro (h | h)
        · exact absurd (List.isPrefixOf_iff_prefix.mpr h) hp
        · exact h

theorem string_find_isSome_iff (s pat : String) :
    (string_find s pat).isSome = true ↔ pat.toList <:+: s.toList :=
  findFrom_isSome_iff pat.toList s.toList 0

/-! Holding status after one call and after a sequence of calls. -/

theorem mem_step_iff (m : NvJpegDecoderManager) (c : Call) (x : String) :
    x ∈ (step m c).hw_decoder_cameras_ ↔
      (x ∈ m.hw_decoder_cameras_ ∧ c ≠ Call.release x) ∨
      (c = Call.acquire x ∧ (acquireDecoderSlot m x).1 = true) := by
  cases c with
  | acquire y =>
    simp only [step, mem_acquire_iff, ne_eq, not_false_eq_true, and_true, Call.acquire.injEq,
      reduceCtorEq]
    constructor
    · rintro (h | ⟨rfl, h⟩)
      · exact Or.inl h
      · exact Or.inr ⟨rfl, h⟩
    · rintro (h | ⟨rfl, h⟩)
      · exact Or.inl h
      · exact Or.inr ⟨rfl, h⟩
  | release y =>
    simp only [step, mem_release_iff, ne_eq, Call.release.injEq, reduceCtorEq, false_and,
      or_false]
    constructor
    · rintro ⟨h1, h2⟩; exact ⟨h2, fun h => h1 h.symm⟩
    · rintro ⟨h1, h2⟩; exact ⟨fun h => h2 h.symm, h1⟩
  | isAvailable y => simp [step]
  | getMax => simp [step]
  | setMax n => simp [step, setMaxHardwareDecoders]

theorem mem_run_iff (x : String) (cs : List Call) :
    ∀ m : NvJpegDecoderManager,
      x ∈ (run m cs).hw_decoder_cameras_ ↔
        (x ∈ m.hw_decoder_cameras_ ∧ Call.release x ∉ cs) ∨
        ∃ pre post, cs = pre ++ Call.acquire x :: post ∧
          (acquireDecoderSlot (run m pre) x).1 = true ∧ Call.release x ∉ post := by
  induction cs with
  | nil =>
    intro m
    simp [run]
  | cons c cs ih =>
    intro m
    rw [run_cons, ih (step m c), mem_step_iff]
    constructor
    · rintro (⟨(⟨hx, hc⟩ | ⟨hc, hg⟩), hrel⟩ | ⟨pre, post, hcs, hg, hrel⟩)
      · refine Or.inl ⟨hx, ?_⟩
        intro hmem
        rcases List.mem_cons.mp hmem with h | h
        · exact hc h.symm
        · exact hrel h
      · exact Or.inr ⟨[], cs, by rw [hc]; rfl, hg, hrel⟩
      · exact Or.inr ⟨c :: pre, post, by rw [hcs]; rfl, by rw [run_cons]; exact hg, hrel⟩
    · rintro (⟨hx, hrel⟩ | ⟨pre, post, hcs, hg, hrel⟩)
      · exact Or.inl ⟨Or.inl ⟨hx, fun h => hrel (h ▸ List.mem_cons_self c cs)⟩,
          fun h => hrel (List.mem_cons_of_mem c h)⟩
      · cases pre with
        | nil =>
          simp only [List.nil_append, List.cons.injEq] at hcs
          obtain ⟨hc, hpost⟩ := hcs
          exact Or.inl ⟨Or.inr ⟨hc, hg⟩, hpost ▸ hrel⟩
        | cons d pre =>
          simp only [List.cons_append, List.cons.injEq] at hcs
          obtain ⟨hc, hpost⟩ := hcs
          subst hc
          exact Or.inr ⟨pre, post, hpost, by rw [run_cons] at hg; exact hg, hrel⟩

/-! Threads calling `acquireDecoderSlot` concurrently: the invariant of the
interleaved execution. -/

theorem pc_update_same {n : Nat} (P : Pc → Bool) (pc : Fin n → Pc) (i : Fin n) (p : Pc)
    (h : P p = P (pc i)) (j : Fin n) : P (Function.update pc i p j) = P (pc j) := by
  by_cases hj : j = i
  · subst hj; simp [h]
  · rw [Function.update_noteq hj]

theorem filter_update_gain {n : Nat} (P : Pc → Bool) (pc : Fin n → Pc) (i : Fin n) (p : Pc)
    (hp : P p = true) :
    Finset.univ.filter (fun j => P (Function.update pc i p j) = true)
      = insert i (Finset.univ.filter (fun j => P (pc j) = true)) := by
  ext j
  simp only [Finset.mem_filter, Finset.mem_univ, true_and, Finset.mem_insert]
  by_cases hj : j = i
  · subst hj; simp [hp]
  · rw [Function.update_noteq hj]; simp [hj]

theorem threadsInv_start {n : Nat} (cams : Fin n → String) (capacity : Int)
    (hcap : 0 ≤ capacity) : ThreadsInv cams capacity (startThreads n capacity) where
  cap := rfl
  mutex_iff := by simp [startThreads, Pc.inCritical]
  excl := by simp [startThreads, Pc.inCritical]
  owners := by simp [startThreads, initial, Pc.hasInserted]
  active := by simp [startThreads, initial, Pc.counted]
  le_cap := by simpa [startThreads, initial] using hcap
  lt_cap := by simp [startThreads]
  full := by simp [startThreads, Pc.refused]

theorem not_inserted_of_locked {n : Nat} {cams : Fin n → String} {capacity : Int}
    {t : Threads n} (hinj : Function.Injective cams) (hinv : ThreadsInv cams capacity t)
    {i : Fin n} (hpc : (t.pc i).hasInserted = false) :
    cams i ∉ t.shared.hw_decoder_cameras_ := by
  rw [hinv.owners]
  simp only [Finset.mem_image, Finset.mem_filter, Finset.mem_univ, true_and, not_exists,
    not_and]
  intro j hj hji
  rw [hinj hji, hpc] at hj
  exact absurd hj (by decide)

theorem threadsInv_step {n : Nat} {cams : Fin n → String} {capacity : Int}
    {t t2 : Threads n} (hinj : Function.Injective cams) (hinv : ThreadsInv cams capacity t)
    {i : Fin n} (hstep : threadStep cams t i = some t2) : ThreadsInv cams capacity t2 := by
  unfold threadStep at hstep
  cases hpc : t.pc i with
  | start =>
    simp only [hpc] at hstep
    split_ifs at hstep with hm
    simp only [Option.some.injEq] at hstep
    subst hstep
    have hnone : ∀ j, (t.pc j).inCritical = false := by
      intro j
      by_contra hj
      exact hm (hinv.mutex_iff.mpr ⟨j, by simpa using hj⟩)
    have hcrit : ∀ j, (Function.update t.pc i Pc.locked j).inCritical = true → j = i := by
      intro j hj
      by_contra hji
      rw [Function.update_noteq hji, hnone j] at hj
      exact absurd hj (by decide)
    refine ⟨hinv.cap, ?_, ?_, ?_, ?_, hinv.le_cap, ?_, ?_⟩
    · simp only [true_iff]
      exact ⟨i, by simp [Pc.inCritical]⟩
    · intro j k hj hk
      rw [hcrit j hj, hcrit k hk]
    · simp only [pc_update_same Pc.hasInserted t.pc i Pc.locked (by rw [hpc]; rfl)]
      exact hinv.owners
    · simp only [pc_update_same Pc.counted t.pc i Pc.locked (by rw [hpc]; rfl)]
      exact hinv.active
    · intro j hj
      by_cases hji : j = i
      · subst hji; simp at hj
      · simp only [Function.update_noteq hji] at hj; exact hinv.lt_cap j hj
    · intro j hj
      rw [pc_update_same Pc.refused t.pc i Pc.locked (by rw [hpc]; rfl)] at hj
      exact hinv.full j hj
  | locked =>
    simp only [hpc] at hstep
    have hnot : cams i ∉ t.shared.hw_decoder_cameras_ :=
      not_inserted_of_locked hinj hinv (by rw [hpc]; rfl)
    simp only [hnot, if_false, Option.some.injEq] at hstep
    subst hstep
    refine ⟨hinv.cap, ?_, ?_, ?_, ?_, hinv.le_cap, ?_, ?_⟩
    · simp only [pc_update_same Pc.inCritical t.pc i Pc.checked (by rw [hpc]; rfl)]
      exact hinv.mutex_iff
    · simp only [pc_update_same Pc.inCritical t.pc i Pc.checked (by rw [hpc]; rfl)]
      exact hinv.excl
    · simp only [pc_update_same Pc.hasInserted t.pc i Pc.checked (by rw [hpc]; rfl)]
      exact hinv.owners
    · simp only [pc_update_same Pc.counted t.pc i Pc.checked (by rw [hpc]; rfl)]
      exact hinv.active
    · intro j hj
      by_cases hji : j = i
      · subst hji; simp at hj
      · simp only [Function.update_noteq hji] at hj; exact hinv.lt_cap j hj
    · intro j hj
      rw [pc_update_same Pc.refused t.pc i Pc.checked (by rw [hpc]; rfl)] at hj
      exact hinv.full j hj
  | checked =>
    simp only [hpc] at hstep
    split_ifs at hstep with hlt
    · simp only [Option.some.injEq] at hstep
      subst hstep
      refine ⟨hinv.cap, ?_, ?_, ?_, ?_, hinv.le_cap, ?_, ?_⟩
      · simp only [pc_update_same Pc.inCritical t.pc i Pc.room (by rw [hpc]; rfl)]
        exact hinv.mutex_iff
      · simp only [pc_update_same Pc.inCritical t.pc i Pc.room (by rw [hpc]; rfl)]
        exact hinv.excl
      · simp only [pc_update_same Pc.hasInserted t.pc i Pc.room (by rw [hpc]; rfl)]
        exact hinv.owners
      · simp only [pc_update_same Pc.counted t.pc i Pc.room (by rw [hpc]; rfl)]
        exact hinv.active
      · intro j _
        have hc := hinv.cap
        simp only at hlt ⊢
        omega
      · intro j hj
        rw [pc_update_same Pc.refused t.pc i Pc.room (by rw [hpc]; rfl)] at hj
        exact hinv.full j hj
    · simp only [Option.some.injEq] at hstep
      subst hstep
      refine ⟨hinv.cap, ?_, ?_, ?_, ?_, hinv.le_cap, ?_, ?_⟩
      · simp only [pc_update_same Pc.inCritical t.pc i (Pc.leaving false) (by rw [hpc]; rfl)]
        exact hinv.mutex_iff
      · simp only [pc_update_same Pc.inCritical t.pc i (Pc.leaving false) (by rw [hpc]; rfl)]
        exact hinv.excl
      · simp only [pc_update_same Pc.hasInserted t.pc i (Pc.leaving false) (by rw [hpc]; rfl)]
        exact hinv.owners
      · simp only [pc_update_same Pc.counted t.pc i (Pc.leaving false) (by rw [hpc]; rfl)]
        exact hinv.active
      · intro j hj
        by_cases hji : j = i
        · subst hji; simp at hj
        · simp only [Function.update_noteq hji] at hj; exact hinv.lt_cap j hj
      · intro j _
        have hc := hinv.cap
        simp only at hlt ⊢
        omega
  | room =>
    simp only [hpc, Option.some.injEq] at hstep
    subst hstep
    refine ⟨hinv.cap, ?_, ?_, ?_, ?_, hinv.le_cap, ?_, ?_⟩
    · simp only [pc_update_same Pc.inCritical t.pc i Pc.inserted (by rw [hpc]; rfl)]
      exact hinv.mutex_iff
    · simp only [pc_update_same Pc.inCritical t.pc i Pc.inserted (by rw [hpc]; rfl)]
      exact hinv.excl
    · simp only [filter_update_gain Pc.hasInserted t.pc i Pc.inserted rfl, Finset.image_insert,
        hinv.owners]
    · simp only [pc_update_same Pc.counted t.pc i Pc.inserted (by rw [hpc]; rfl)]
      exact hinv.active
    · intro j _
      exact hinv.lt_cap i (Or.inl hpc)
    · intro j hj
      rw [pc_update_same Pc.refused t.pc i Pc.inserted (by rw [hpc]; rfl)] at hj
      exact hinv.full j hj
  | inserted =>
    simp only [hpc, Option.some.injEq] at hstep
    subst hstep
    have hlt := hinv.lt_cap i (Or.inr hpc)
    have hicrit : (t.pc i).inCritical = true := by rw [hpc]; rfl
    refine ⟨hinv.cap, ?_, ?_, ?_, ?_, ?_, ?_, ?_⟩
    · simp only [pc_update_same Pc.inCritical t.pc i (Pc.leaving true) (by rw [hpc]; rfl)]
      exact hinv.mutex_iff
    · simp only [pc_update_same Pc.inCritical t.pc i (Pc.leaving true) (by rw [hpc]; rfl)]
      exact hinv.excl
    · simp only [pc_update_same Pc.hasInserted t.pc i (Pc.leaving true) (by rw [hpc]; rfl)]
      exact hinv.owners
    · have hni : i ∉ Finset.univ.filter (fun j => (t.pc j).counted = true) := by
        simp [hpc, Pc.counted]
      simp only [filter_update_gain Pc.counted t.pc i (Pc.leaving true) rfl,
        Finset.card_insert_of_not_mem hni, hinv.active]
      push_cast
      rfl
    · simp only
      omega
    · intro j hj
      exfalso
      by_cases hji : j = i
      · subst hji; simp at hj
      · simp only [Function.update_noteq hji] at hj
        have hjcrit : (t.pc j).inCritical = true := by
          rcases hj with hj | hj <;> rw [hj] <;> rfl
        exact hji (hinv.excl j i hjcrit hicrit)
    · intro j hj
      by_cases hji : j = i
      · subst hji; simp [Pc.refused] at hj
      · simp only [Function.update_noteq hji] at hj
        have := hinv.full j hj
        simp only
        omega
  | leaving r =>
    simp only [hpc, Option.some.injEq] at hstep
    subst hstep
    have hicrit : (t.pc i).inCritical = true := by rw [hpc]; rfl
    have hnone : ∀ j, (Function.update t.pc i (Pc.done r) j).inCritical = false := by
      intro j
      by_cases hji : j = i
      · subst hji; simp [Pc.inCritical]
      · rw [Function.update_noteq hji]
        by_contra hj
        exact hji (hinv.excl j i (by simpa using hj) hicrit)
    refine ⟨hinv.cap, ?_, ?_, ?_, ?_, hinv.le_cap, ?_, ?_⟩
    · simp [hnone]
    · intro j k hj
      rw [hnone j] at hj
      exact absurd hj (by decide)
    · simp only [pc_update_same Pc.hasInserted t.pc i (Pc.done r)
        (by rw [hpc]; cases r <;> rfl)]
      exact hinv.owners
    · simp only [pc_update_same Pc.counted t.pc i (Pc.done r) (by rw [hpc]; cases r <;> rfl)]
      exact hinv.active
    · intro j hj
      by_cases hji : j = i
      · subst hji; simp at hj
      · simp only [Function.update_noteq hji] at hj; exact hinv.lt_cap j hj
    · intro j hj
      rw [pc_update_same Pc.refused t.pc i (Pc.done r) (by rw [hpc]; cases r <;> rfl)] at hj
      exact hinv.full j hj
  | done r =>
    simp only [hpc] at hstep
    exact absurd hstep (by simp)

theorem threadsInv_execute {n : Nat} {cams : Fin n → String} {capacity : Int}
    (hinj : Function.Injective cams) (sched : List (Fin n)) :
    ∀ t t2 : Threads n, ThreadsInv cams capacity t → execute cams t sched = some t2 →
      ThreadsInv cams capacity t2 := by
  induction sched with
  | nil =>
    intro t t2 hinv h
    simp only [execute, Option.some.injEq] at h
    exact h ▸ hinv
  | cons i sched ih =>
    intro t t2 hinv h
    simp only [execute] at h
    cases hs : threadStep cams t i with
    | none => rw [hs] at h; simp at h
    | some t1 =>
      rw [hs] at h
      exact ih t1 t2 (threadsInv_step hinj hinv hs) h

theorem stepsLeft_update {n : Nat} (t : Threads n) (i : Fin n) (p : Pc) :
    (∑ j, (Function.update t.pc i p j).remaining) + (t.pc i).remaining
      = stepsLeft t + p.remaining := by
  unfold stepsLeft
  rw [← Finset.add_sum_erase Finset.univ (fun j => (Function.update t.pc i p j).remaining)
      (Finset.mem_univ i),
    ← Finset.add_sum_erase Finset.univ (fun j => (t.pc j).remaining) (Finset.mem_univ i)]
  have hrest : ∑ j ∈ Finset.univ.erase i, (Function.update t.pc i p j).remaining
      = ∑ j ∈ Finset.univ.erase i, (t.pc j).remaining := by
    refine Finset.sum_congr rfl (fun j hj => ?_)
    rw [Function.update_noteq (Finset.ne_of_mem_erase hj)]
  simp only [Function.update_same, hrest]
  omega

theorem stepsLeft_step {n : Nat} {cams : Fin n → String} {t t2 : Threads n} {i : Fin n}
    (hstep : threadStep cams t i = some t2) : stepsLeft t2 + 1 ≤ stepsLeft t := by
  unfold threadStep at hstep
  cases hpc : t.pc i with
  | start =>
    simp only [hpc] at hstep
    split_ifs at hstep
    simp only [Option.some.injEq] at hstep
    subst hstep
    have h := stepsLeft_update t i Pc.locked
    rw [hpc] at h
    simp only [stepsLeft, Pc.remaining] at h ⊢
    omega
  | locked =>
    simp only [hpc] at hstep
    split_ifs at hstep
    · simp only [Option.some.injEq] at hstep
      subst hstep
      have h := stepsLeft_update t i (Pc.leaving true)
      rw [hpc] at h
      simp only [stepsLeft, Pc.remaining] at h ⊢
      omega
    · simp only [Option.some.injEq] at hstep
      subst hstep
      have h := stepsLeft_update t i Pc.checked
      rw [hpc] at h
      simp only [stepsLeft, Pc.remaining] at h ⊢
      omega
  | checked =>
    simp only [hpc] at hstep
    split_ifs at hstep
    · simp only [Option.some.injEq] at hstep
      subst hstep
      have h := stepsLeft_update t i Pc.room
      rw [hpc] at h
      simp only [stepsLeft, Pc.remaining] at h ⊢
      omega
    · simp only [Option.some.injEq] at hstep
      subst hstep
      have h := stepsLeft_update t i (Pc.leaving false)
      rw [hpc] at h
      simp only [stepsLeft, Pc.remaining] at h ⊢
      omega
  | room =>
    simp only [hpc, Option.some.injEq] at hstep
    subst hstep
    have h := stepsLeft_update t i Pc.inserted
    rw [hpc] at h
    simp only [stepsLeft, Pc.remaining] at h ⊢
    omega
  | inserted =>
    simp only [hpc, Option.some.injEq] at hstep
    subst hstep
    have h := stepsLeft_update t i (Pc.leaving true)
    rw [hpc] at h
    simp only [stepsLeft, Pc.remaining] at h ⊢
    omega
  | leaving r =>
    simp only [hpc, Option.some.injEq] at hstep
    subst hstep
    have h := stepsLeft_update t i (Pc.done r)
    rw [hpc] at h
    simp only [stepsLeft, Pc.remaining] at h ⊢
    omega
  | done r =>
    simp only [hpc] at hstep
    exact absurd hstep (by simp)

theorem stepsLeft_execute {n : Nat} {cams : Fin n → String} (sched : List (Fin n)) :
    ∀ t t2 : Threads n, execute cams t sched = some t2 →
      stepsLeft t2 + sched.length ≤ stepsLeft t := by
  induction sched with
  | nil =>
    intro t t2 h
    simp only [execute, Option.some.injEq] at h
    subst h
    simp
  | cons i sched ih =>
    intro t t2 h
    simp only [execute] at h
    cases hs : threadStep cams t i with
    | none => rw [hs] at h; simp at h
    | some t1 =>
      rw [hs] at h
      have h1 := stepsLeft_step hs
      have h2 := ih t1 t2 h
      simp only [List.length_cons]
      omega

theorem stepsLeft_start (n : Nat) (capacity : Int) :
    stepsLeft (startThreads n capacity) = 6 * n := by
  simp [stepsLeft, startThreads, Pc.remaining, mul_comm]

theorem thread_can_move {n : Nat} {cams : Fin n → String} {capacity : Int} {t : Threads n}
    (hinv : ThreadsInv cams capacity t) (hnot : allReturned t = false) :
    ∃ i, (threadStep cams t i).isSome = true := by
  simp only [allReturned, decide_eq_false_iff_not, not_forall] at hnot
  obtain ⟨j, hj⟩ := hnot
  by_cases hm : t.mutex_ = true
  · obtain ⟨i, hi⟩ := hinv.mutex_iff.mp hm
    refine ⟨i, ?_⟩
    unfold threadStep
    cases hpc : t.pc i with
    | start => rw [hpc] at hi; simp [Pc.inCritical] at hi
    | locked => simp only; split_ifs <;> rfl
    | checked => simp only; split_ifs <;> rfl
    | room => rfl
    | inserted => rfl
    | leaving r => rfl
    | done r => rw [hpc] at hi; simp [Pc.inCritical] at hi
  · refine ⟨j, ?_⟩
    have hjc : (t.pc j).inCritical ≠ true := fun h => hm (hinv.mutex_iff.mpr ⟨j, h⟩)
    unfold threadStep
    cases hpc : t.pc j with
    | start => simp [hm]
    | locked => rw [hpc] at hjc; exact absurd rfl hjc
    | checked => rw [hpc] at hjc; exact absurd rfl hjc
    | room => rw [hpc] at hjc; exact absurd rfl hjc
    | inserted => rw [hpc] at hjc; exact absurd rfl hjc
    | leaving r => rw [hpc] at hjc; exact absurd rfl hjc
    | done r => rw [hpc] at hj; exact absurd rfl hj

theorem counts_when_all_returned {n : Nat} {cams : Fin n → String} {capacity : Int}
    {t : Threads n} (hinj : Function.Injective cams) (hinv : ThreadsInv cams capacity t)
    (hlt : capacity < (n : Int)) (hall : allReturned t = true) :
    ((granted t).card : Int) = capacity ∧
    ((denied t).card : Int) = (n : Int) - capacity ∧
    (t.shared.hw_decoder_cameras_.card : Int) = t.shared.active_hw_decoders_ := by
  simp only [allReturned, decide_eq_true_eq] at hall
  have hcounted : Finset.univ.filter (fun i => (t.pc i).counted = true) = granted t := by
    ext i
    simp only [granted, Finset.mem_filter, Finset.mem_univ, true_and]
    have hi := hall i
    cases hpc : t.pc i with
    | done r => cases r <;> simp [Pc.counted]
    | start => rw [hpc] at hi; simp [Pc.returned] at hi
    | locked => rw [hpc] at hi; simp [Pc.returned] at hi
    | checked => rw [hpc] at hi; simp [Pc.returned] at hi
    | room => rw [hpc] at hi; simp [Pc.returned] at hi
    | inserted => rw [hpc] at hi; simp [Pc.returned] at hi
    | leaving r => rw [hpc] at hi; simp [Pc.returned] at hi
  have hins : Finset.univ.filter (fun i => (t.pc i).hasInserted = true) = granted t := by
    ext i
    simp only [granted, Finset.mem_filter, Finset.mem_univ, true_and]
    have hi := hall i
    cases hpc : t.pc i with
    | done r => cases r <;> simp [Pc.hasInserted]
    | start => rw [hpc] at hi; simp [Pc.returned] at hi
    | locked => rw [hpc] at hi; simp [Pc.returned] at hi
    | checked => rw [hpc] at hi; simp [Pc.returned] at hi
    | room => rw [hpc] at hi; simp [Pc.returned] at hi
    | inserted => rw [hpc] at hi; simp [Pc.returned] at hi
    | leaving r => rw [hpc] at hi; simp [Pc.returned] at hi
  have hden : denied t = Finset.univ.filter (fun i => ¬ t.pc i = Pc.done true) := by
    ext i
    simp only [denied, Finset.mem_filter, Finset.mem_univ, true_and]
    have hi := hall i
    cases hpc : t.pc i with
    | done r => cases r <;> simp
    | start => rw [hpc] at hi; simp [Pc.returned] at hi
    | locked => rw [hpc] at hi; simp [Pc.returned] at hi
    | checked => rw [hpc] at hi; simp [Pc.returned] at hi
    | room => rw [hpc] at hi; simp [Pc.returned] at hi
    | inserted => rw [hpc] at hi; simp [Pc.returned] at hi
    | leaving r => rw [hpc] at hi; simp [Pc.returned] at hi
  have hsum : (granted t).card + (denied t).card = n := by
    rw [hden]
    have := Finset.filter_card_add_filter_neg_card_eq_card (s := (Finset.univ : Finset (Fin n)))
      (fun i => t.pc i = Pc.done true)
    simpa [granted] using this
  have hact : t.shared.active_hw_decoders_ = ((granted t).card : Int) := by
    rw [hinv.active, hcounted]
  have hle := hinv.le_cap
  have hfull : capacity ≤ t.shared.active_hw_decoders_ := by
    by_cases hd : (denied t).Nonempty
    · obtain ⟨i, hi⟩ := hd
      simp only [denied, Finset.mem_filter, Finset.mem_univ, true_and] at hi
      exact hinv.full i (by rw [hi]; rfl)
    · rw [Finset.not_nonempty_iff_eq_empty] at hd
      rw [hd, Finset.card_empty] at hsum
      omega
  refine ⟨by omega, by omega, ?_⟩
  rw [hinv.owners, hins, Finset.card_image_of_injective _ hinj, hact]

theorem thread_alone_refines_acquire {n : Nat} (cams : Fin n → String) (t : Threads n)
    (i : Fin n) (hpc : t.pc i = Pc.start) (hm : t.mutex_ = false) :
    ∃ k, k ≤ 6 ∧ execute cams t (List.replicate k i) =
      some { shared := (acquireDecoderSlot t.shared (cams i)).2
             mutex_ := false
             pc := Function.update t.pc i (Pc.done (acquireDecoderSlot t.shared (cams i)).1) } := by
  by_cases hx : cams i ∈ t.shared.hw_decoder_cameras_
  · refine ⟨3, by decide, ?_⟩
    simp [execute, threadStep, hpc, hm, hx, acquire_of_mem hx]
  · by_cases hc : t.shared.active_hw_decoders_ < t.shared.max_hw_decoders_
    · refine ⟨6, by decide, ?_⟩
      simp [execute, threadStep, hpc, hm, hx, hc, acquire_of_room hx hc]
    · refine ⟨4, by decide, ?_⟩
      simp [execute, threadStep, hpc, hm, hx, hc, acquire_of_full hx hc]

theorem execute_eq_some_getD {n : Nat} (cams : Fin n → String) (t d : Threads n)
    (sched : List (Fin n)) (h : (execute cams t sched).isSome = true) :
    execute cams t sched = some ((execute cams t sched).getD d) := by
  cases hx : execute cams t sched with
  | none => rw [hx] at h; simp at h
  | some t2 => rfl

/-- C1: `acquireDecoderSlot x` returns true exactly when `x` is already in the
owner set or the active count is below the capacity; when `x` was not in the
owner set and the active count was below the capacity, the state after the call
has `x` inserted in the owner set, the active count larger by exactly one and
the capacity unchanged. -/
theorem C1_acquire_contract (m : NvJpegDecoderManager) (x : String) :
    ((acquireDecoderSlot m x).1 = true ↔
      (x ∈ m.hw_decoder_cameras_ ∨ m.active_hw_decoders_ < m.max_hw_decoders_)) ∧
    ((x ∉ m.hw_decoder_cameras_ ∧ m.active_hw_decoders_ < m.max_hw_decoders_) →
      (acquireDecoderSlot m x).2.hw_decoder_cameras_ = insert x m.hw_decoder_cameras_ ∧
      (acquireDecoderSlot m x).2.active_hw_decoders_ = m.active_hw_decoders_ + 1 ∧
      (acquireDecoderSlot m x).2.max_hw_decoders_ = m.max_hw_decoders_) := by
  unfold acquireDecoderSlot
  by_cases hx : x ∈ m.hw_decoder_cameras_
  · simp [hx]
  · by_cases hc : m.active_hw_decoders_ < m.max_hw_decoders_
    · simp [hx, hc]
    · simp [hx, hc]

/-- Witness for C1 at the freshly constructed manager with capacity 1 and camera
"cam1": the guard of the second part holds there. -/
theorem C1_acquire_contract_witness :
    ("cam1" ∉ (initial 1).hw_decoder_cameras_ ∧
      (initial 1).active_hw_decoders_ < (initial 1).max_hw_decoders_) ∧
    ((acquireDecoderSlot (initial 1) "cam1").2.hw_decoder_cameras_
        = insert "cam1" (initial 1).hw_decoder_cameras_ ∧
      (acquireDecoderSlot (initial 1) "cam1").2.active_hw_decoders_
        = (initial 1).active_hw_decoders_ + 1 ∧
      (acquireDecoderSlot (initial 1) "cam1").2.max_hw_decoders_
        = (initial 1).max_hw_decoders_) :=
  ⟨⟨by decide, by decide⟩,
    (C1_acquire_contract (initial 1) "cam1").2 ⟨by decide, by decide⟩⟩

/-- C2: in every state reached from the initial state (empty owner set, zero
active count, any capacity) by a finite sequence of public method calls, the
number of elements of the owner set equals the active count. -/
theorem C2_owner_count_matches (capacity : Int) (calls : List Call) :
    ((run (initial capacity) calls).hw_decoder_cameras_.card : Int)
      = (run (initial capacity) calls).active_hw_decoders_ :=
  countMatches_run calls _ (countMatches_initial capacity)

/-- C3: starting from the initial state with a capacity at least zero, after
every finite sequence of calls in which no `setMaxHardwareDecoders` call sets
the capacity below the active count current at that call, the active count is
at least zero and at most the capacity. -/
theorem C3_active_within_capacity (capacity : Int) (hcap : 0 ≤ capacity)
    (calls : List Call) (hcalls : respectsUsage (initial capacity) calls = true) :
    0 ≤ (run (initial capacity) calls).active_hw_decoders_ ∧
    (run (initial capacity) calls).active_hw_decoders_
      ≤ (run (initial capacity) calls).max_hw_decoders_ :=
  ⟨active_nonneg_of_countMatches (countMatches_run calls _ (countMatches_initial capacity)),
    bound_run calls _ (by simpa [initial] using hcap) hcalls⟩

/-- Witness for C3: capacity 2, two cameras acquire, the capacity is set to 2
again and then to 3, one camera releases and the capacity is lowered to 1. -/
theorem C3_active_within_capacity_witness :
    (0 : Int) ≤ 2 ∧
    respectsUsage (initial 2)
      [Call.acquire "cam1", Call.acquire "cam2", Call.setMax 2, Call.setMax 3,
        Call.release "cam1", Call.setMax 1] = true ∧
    (0 ≤ (run (initial 2)
      [Call.acquire "cam1", Call.acquire "cam2", Call.setMax 2, Call.setMax 3,
        Call.release "cam1", Call.setMax 1]).active_hw_decoders_ ∧
    (run (initial 2)
      [Call.acquire "cam1", Call.acquire "cam2", Call.setMax 2, Call.setMax 3,
        Call.release "cam1", Call.setMax 1]).active_hw_decoders_
      ≤ (run (initial 2)
      [Call.acquire "cam1", Call.acquire "cam2", Call.setMax 2, Call.setMax 3,
        Call.release "cam1", Call.setMax 1]).max_hw_decoders_) :=
  ⟨by decide, by decide, C3_active_within_capacity 2 (by decide) _ (by decide)⟩

/-- C4: for every capacity at least zero and every list of more than capacity
pairwise distinct cameras, acquiring for them in order from the initial empty
state returns true for exactly the first capacity-many cameras and false for
all the remaining ones; afterwards exactly the first capacity-many cameras are
holding, and the active count and the size of the owner set both equal the
capacity. -/
theorem C4_capacity_limits_holders (capacity : Int) (hcap : 0 ≤ capacity)
    (l : List String) (hnd : l.Nodup) (hlen : capacity < (l.length : Int)) :
    (acquireAll (initial capacity) l).1
      = List.replicate capacity.toNat true
          ++ List.replicate (l.length - capacity.toNat) false ∧
    (acquireAll (initial capacity) l).2.hw_decoder_cameras_
      = (l.take capacity.toNat).toFinset ∧
    (acquireAll (initial capacity) l).2.active_hw_decoders_ = capacity ∧
    ((acquireAll (initial capacity) l).2.hw_decoder_cameras_.card : Int) = capacity := by
  have hk : (capacity.toNat : Int) = capacity := Int.toNat_of_nonneg hcap
  have hlt : capacity.toNat < l.length := by omega
  have hmin : min capacity.toNat l.length = capacity.toNat := Nat.min_eq_left (le_of_lt hlt)
  obtain ⟨h1, h2, h3, _⟩ :=
    acquireAll_fresh l (initial capacity) capacity.toNat hnd
      (fun x _ => by simp [initial]) (by simp [initial, hk])
  rw [hmin] at h1 h3
  refine ⟨h1, ?_, ?_, ?_⟩
  · rw [h2]; simp [initial]
  · rw [h3]; simp [initial, hk]
  · rw [h2]
    have hnd2 : (l.take capacity.toNat).Nodup := hnd.sublist (List.take_sublist _ _)
    simp only [initial, Finset.empty_union, List.toFinset_card_of_nodup hnd2,
      List.length_take, hmin]
    exact hk

/-- Witness for C4: capacity 2 and the three cameras "cam1", "cam2", "cam3". -/
theorem C4_capacity_limits_holders_witness :
    (0 : Int) ≤ 2 ∧ ["cam1", "cam2", "cam3"].Nodup ∧
    (2 : Int) < (["cam1", "cam2", "cam3"].length : Int) ∧
    ((acquireAll (initial 2) ["cam1", "cam2", "cam3"]).1
      = List.replicate (2 : Int).toNat true
          ++ List.replicate (["cam1", "cam2", "cam3"].length - (2 : Int).toNat) false ∧
    (acquireAll (initial 2) ["cam1", "cam2", "cam3"]).2.hw_decoder_cameras_
      = (["cam1", "cam2", "cam3"].take (2 : Int).toNat).toFinset ∧
    (acquireAll (initial 2) ["cam1", "cam2", "cam3"]).2.active_hw_decoders_ = 2 ∧
    ((acquireAll (initial 2) ["cam1", "cam2", "cam3"]).2.hw_decoder_cameras_.card : Int)
      = 2) :=
  ⟨by decide, by decide, by decide,
    C4_capacity_limits_holders 2 (by decide) ["cam1", "cam2", "cam3"] (by decide) (by decide)⟩

/-- C5: if `acquireDecoderSlot x` returns false then the state after the call
(owner set, active count and capacity) is the state before the call, and `x` is
not holding afterwards. -/
theorem C5_failed_acquire_changes_nothing (m : NvJpegDecoderManager) (x : String)
    (hfail : (acquireDecoderSlot m x).1 = false) :
    (acquireDecoderSlot m x).2 = m ∧
    isHardwareDecodingAvailable (acquireDecoderSlot m x).2 x = false := by
  by_cases hx : x ∈ m.hw_decoder_cameras_
  · rw [acquire_of_mem hx] at hfail
    simp at hfail
  · by_cases hc : m.active_hw_decoders_ < m.max_hw_decoders_
    · rw [acquire_of_room hx hc] at hfail
      simp at hfail
    · rw [acquire_of_full hx hc]
      exact ⟨rfl, by simp [isHardwareDecodingAvailable, hx]⟩

/-- Witness for C5: with capacity 1 and "cam1" holding, the acquire of "cam2"
fails. -/
theorem C5_failed_acquire_changes_nothing_witness :
    (acquireDecoderSlot (acquireDecoderSlot (initial 1) "cam1").2 "cam2").1 = false ∧
    ((acquireDecoderSlot (acquireDecoderSlot (initial 1) "cam1").2 "cam2").2
        = (acquireDecoderSlot (initial 1) "cam1").2 ∧
      isHardwareDecodingAvailable
        (acquireDecoderSlot (acquireDecoderSlot (initial 1) "cam1").2 "cam2").2 "cam2"
        = false) :=
  ⟨by decide,
    C5_failed_acquire_changes_nothing (acquireDecoderSlot (initial 1) "cam1").2 "cam2"
      (by decide)⟩

/-- C6: when `x` is already in the owner set, `acquireDecoderSlot x` returns true
and leaves the whole state unchanged; and from a state where `x` is not holding
and the active count is below the capacity, two consecutive
`acquireDecoderSlot x` calls both return true and the active count ends exactly
one above its value before the first call. -/
theorem C6_reacquire_idempotent (m : NvJpegDecoderManager) (x : String) :
    (x ∈ m.hw_decoder_cameras_ → acquireDecoderSlot m x = (true, m)) ∧
    (x ∉ m.hw_decoder_cameras_ → m.active_hw_decoders_ < m.max_hw_decoders_ →
      (acquireDecoderSlot m x).1 = true ∧
      (acquireDecoderSlot (acquireDecoderSlot m x).2 x).1 = true ∧
      (acquireDecoderSlot (acquireDecoderSlot m x).2 x).2.active_hw_decoders_
        = m.active_hw_decoders_ + 1) := by
  refine ⟨fun hx => acquire_of_mem hx, fun hx hc => ?_⟩
  rw [acquire_of_room hx hc]
  refine ⟨rfl, ?_, ?_⟩
  · rw [acquire_of_mem (by simp)]
  · rw [acquire_of_mem (by simp)]

/-- Witness for C6: the second acquire of "cam1" with capacity 1, and the double
acquire of "cam1" from the initial state. -/
theorem C6_reacquire_idempotent_witness :
    ("cam1" ∈ (acquireDecoderSlot (initial 1) "cam1").2.hw_decoder_cameras_ ∧
      acquireDecoderSlot (acquireDecoderSlot (initial 1) "cam1").2 "cam1"
        = (true, (acquireDecoderSlot (initial 1) "cam1").2)) ∧
    ("cam1" ∉ (initial 1).hw_decoder_cameras_ ∧
      (initial 1).active_hw_decoders_ < (initial 1).max_hw_decoders_ ∧
      (acquireDecoderSlot (initial 1) "cam1").1 = true ∧
      (acquireDecoderSlot (acquireDecoderSlot (initial 1) "cam1").2 "cam1").1 = true ∧
      (acquireDecoderSlot (acquireDecoderSlot (initial 1) "cam1").2 "cam1").2.active_hw_decoders_
        = (initial 1).active_hw_decoders_ + 1) :=
  ⟨⟨by decide,
      (C6_reacquire_idempotent (acquireDecoderSlot (initial 1) "cam1").2 "cam1").1 (by decide)⟩,
    ⟨by decide, by decide,
      (C6_reacquire_idempotent (initial 1) "cam1").2 (by decide) (by decide)⟩⟩

/-- C7: if `x` is in the owner set, `releaseDecoderSlot x` removes exactly `x`
from the owner set and lowers the active count by exactly one; in all cases,
after `releaseDecoderSlot x` the query `isHardwareDecodingAvailable x` returns
false and the capacity is unchanged. -/
theorem C7_release_contract (m : NvJpegDecoderManager) (x : String) :
    (x ∈ m.hw_decoder_cameras_ →
      (releaseDecoderSlot m x).hw_decoder_cameras_ = m.hw_decoder_cameras_.erase x ∧
      (releaseDecoderSlot m x).active_hw_decoders_ = m.active_hw_decoders_ - 1) ∧
    isHardwareDecodingAvailable (releaseDecoderSlot m x) x = false ∧
    (releaseDecoderSlot m x).max_hw_decoders_ = m.max_hw_decoders_ := by
  by_cases hx : x ∈ m.hw_decoder_cameras_
  · rw [release_of_mem hx]
    simp [isHardwareDecodingAvailable]
  · rw [release_of_not_mem hx]
    simp [isHardwareDecodingAvailable, hx]

/-- Witness for C7: "cam1" holds a slot of a manager with capacity 1 and
releases it. -/
theorem C7_release_contract_witness :
    "cam1" ∈ (acquireDecoderSlot (initial 1) "cam1").2.hw_decoder_cameras_ ∧
    ((releaseDecoderSlot (acquireDecoderSlot (initial 1) "cam1").2 "cam1").hw_decoder_cameras_
        = (acquireDecoderSlot (initial 1) "cam1").2.hw_decoder_cameras_.erase "cam1" ∧
      (releaseDecoderSlot (acquireDecoderSlot (initial 1) "cam1").2 "cam1").active_hw_decoders_
        = (acquireDecoderSlot (initial 1) "cam1").2.active_hw_decoders_ - 1) :=
  ⟨by decide,
    (C7_release_contract (acquireDecoderSlot (initial 1) "cam1").2 "cam1").1 (by decide)⟩

/-- C8: for a camera `x` that is not in the owner set, `releaseDecoderSlot x`
leaves the whole state unchanged; hence, in every state, `releaseDecoderSlot x`
twice in a row yields the same state as `releaseDecoderSlot x` once. -/
theorem C8_release_idempotent (m : NvJpegDecoderManager) (x : String) :
    (x ∉ m.hw_decoder_cameras_ → releaseDecoderSlot m x = m) ∧
    releaseDecoderSlot (releaseDecoderSlot m x) x = releaseDecoderSlot m x := by
  refine ⟨fun hx => release_of_not_mem hx, ?_⟩
  by_cases hx : x ∈ m.hw_decoder_cameras_
  · rw [release_of_mem hx]
    exact release_of_not_mem (by simp)
  · rw [release_of_not_mem hx, release_of_not_mem hx]

/-- Witness for C8: "cam2" never acquired from the manager in which "cam1" holds
the only slot. -/
theorem C8_release_idempotent_witness :
    "cam2" ∉ (acquireDecoderSlot (initial 1) "cam1").2.hw_decoder_cameras_ ∧
    releaseDecoderSlot (acquireDecoderSlot (initial 1) "cam1").2 "cam2"
      = (acquireDecoderSlot (initial 1) "cam1").2 :=
  ⟨by decide,
    (C8_release_idempotent (acquireDecoderSlot (initial 1) "cam1").2 "cam2").1 (by decide)⟩

/-- C9, as stated, fails: in the state reached from the initial state with
capacity 1 by one `acquireDecoderSlot "cam1"`, the camera "cam1" holds a slot and
the active count is 1; a further `acquireDecoderSlot "cam1"` followed by
`releaseDecoderSlot "cam1"` ends with active count 0 and "cam1" not holding. -/
theorem C9_round_trip_counterexample :
    ¬ roundTripRestores (acquireDecoderSlot (initial 1) "cam1").2 "cam1" := by
  intro h
  exact absurd h.1 (by decide)

/-- C9, amended: for every state and every camera `x` that is not holding a slot
in that state, `acquireDecoderSlot x` followed by `releaseDecoderSlot x` returns
the active count and the holding status of every camera to their values before
the acquire. -/
theorem C9_round_trip_when_not_holding (m : NvJpegDecoderManager) (x : String)
    (hx : x ∉ m.hw_decoder_cameras_) : roundTripRestores m x := by
  have hstate : releaseDecoderSlot (acquireDecoderSlot m x).2 x = m := by
    by_cases hc : m.active_hw_decoders_ < m.max_hw_decoders_
    · rw [acquire_of_room hx hc, release_of_mem (by simp)]
      simp [Finset.erase_insert hx]
    · rw [acquire_of_full hx hc, release_of_not_mem hx]
  unfold roundTripRestores
  rw [hstate]
  exact ⟨rfl, fun _ => rfl⟩

/-- Witness for the amended C9: "cam1" acquires and releases from the initial
state with capacity 1. -/
theorem C9_round_trip_when_not_holding_witness :
    "cam1" ∉ (initial 1).hw_decoder_cameras_ ∧ roundTripRestores (initial 1) "cam1" :=
  ⟨by decide, C9_round_trip_when_not_holding (initial 1) "cam1" (by decide)⟩

/-- C10: for every state and every integer `n`, zero and negatives included,
`setMaxHardwareDecoders n` leaves the owner set and the active count unchanged,
and `getMaxHardwareDecoders` afterwards returns exactly `n`. -/
theorem C10_set_max_frame (m : NvJpegDecoderManager) (n : Int) :
    (setMaxHardwareDecoders m n).hw_decoder_cameras_ = m.hw_decoder_cameras_ ∧
    (setMaxHardwareDecoders m n).active_hw_decoders_ = m.active_hw_decoders_ ∧
    getMaxHardwareDecoders (setMaxHardwareDecoders m n) = n :=
  ⟨rfl, rfl, rfl⟩

/-- C11: in every reachable state, right after `setMaxHardwareDecoders n` with
`n` at most the active count, every camera that was holding still reports
`isHardwareDecodingAvailable` true and its `acquireDecoderSlot` returns true,
while `acquireDecoderSlot` for every camera not holding returns false.  After
any further acquire and release calls `cs` the same holds: a camera that was
holding at the override and has not released since, and more generally every
camera holding at that point, reports true and is granted again, and as long as
the active count at that point is still at least `n`, every camera not holding
is denied. -/
theorem C11_lowered_capacity_only_blocks_new (capacity : Int) (calls : List Call) (n : Int)
    (hn : n ≤ (run (initial capacity) calls).active_hw_decoders_)
    (cs : List Call) (hcs : ∀ c ∈ cs, c.isAcquireOrRelease = true) :
    (∀ x, (x ∈ (run (initial capacity) calls).hw_decoder_cameras_ →
        isHardwareDecodingAvailable
          (setMaxHardwareDecoders (run (initial capacity) calls) n) x = true ∧
        (acquireDecoderSlot
          (setMaxHardwareDecoders (run (initial capacity) calls) n) x).1 = true) ∧
      (x ∉ (run (initial capacity) calls).hw_decoder_cameras_ →
        (acquireDecoderSlot
          (setMaxHardwareDecoders (run (initial capacity) calls) n) x).1 = false)) ∧
    (∀ x ∈ (run (initial capacity) calls).hw_decoder_cameras_, Call.release x ∉ cs →
      x ∈ (run (setMaxHardwareDecoders (run (initial capacity) calls) n)
        cs).hw_decoder_cameras_) ∧
    (∀ x ∈ (run (setMaxHardwareDecoders (run (initial capacity) calls) n) cs).hw_decoder_cameras_,
      isHardwareDecodingAvailable
        (run (setMaxHardwareDecoders (run (initial capacity) calls) n) cs) x = true ∧
      (acquireDecoderSlot
        (run (setMaxHardwareDecoders (run (initial capacity) calls) n) cs) x).1 = true) ∧
    (n ≤ (run (setMaxHardwareDecoders (run (initial capacity) calls) n) cs).active_hw_decoders_ →
      ∀ x, x ∉ (run (setMaxHardwareDecoders (run (initial capacity) calls) n) cs).hw_decoder_cameras_ →
        (acquireDecoderSlot
          (run (setMaxHardwareDecoders (run (initial capacity) calls) n) cs) x).1 = false) := by
  refine ⟨fun x => ⟨fun hx => ?_, fun hx => ?_⟩, ?_, ?_, ?_⟩
  · have hx2 : x ∈ (setMaxHardwareDecoders (run (initial capacity) calls)
        n).hw_decoder_cameras_ := hx
    refine ⟨by simp [isHardwareDecodingAvailable, hx2], ?_⟩
    rw [acquire_of_mem hx2]
  · have hx2 : x ∉ (setMaxHardwareDecoders (run (initial capacity) calls)
        n).hw_decoder_cameras_ := hx
    rw [acquire_denied hx2 hn]
  · intro x hx hrel
    exact mem_run_of_mem cs _ x hx hrel
  · intro x hx
    refine ⟨by simp [isHardwareDecodingAvailable, hx], ?_⟩
    rw [acquire_of_mem hx]
  · intro hact x hx
    have hmax := max_run cs (setMaxHardwareDecoders (run (initial capacity) calls) n) hcs
    rw [acquire_denied hx (by rw [hmax]; exact hact)]

/-- Witness for C11: capacity 2, "cam1" and "cam2" holding, the capacity is
lowered to 1; "cam1" releases and "cam3" is still denied, the active count
being 1. -/
theorem C11_lowered_capacity_only_blocks_new_witness :
    (1 : Int) ≤ (run (initial 2) [Call.acquire "cam1", Call.acquire "cam2"]).active_hw_decoders_ ∧
    (∀ c ∈ [Call.release "cam1"], c.isAcquireOrRelease = true) ∧
    (1 ≤ (run (setMaxHardwareDecoders
        (run (initial 2) [Call.acquire "cam1", Call.acquire "cam2"]) 1)
        [Call.release "cam1"]).active_hw_decoders_ ∧
      "cam3" ∉ (run (setMaxHardwareDecoders
        (run (initial 2) [Call.acquire "cam1", Call.acquire "cam2"]) 1)
        [Call.release "cam1"]).hw_decoder_cameras_ ∧
      (acquireDecoderSlot (run (setMaxHardwareDecoders
        (run (initial 2) [Call.acquire "cam1", Call.acquire "cam2"]) 1)
        [Call.release "cam1"]) "cam3").1 = false) :=
  ⟨by decide, by decide, by decide, by decide,
    (C11_lowered_capacity_only_blocks_new 2 [Call.acquire "cam1", Call.acquire "cam2"] 1
      (by decide) [Call.release "cam1"] (by decide)).2.2.2 (by decide) "cam3" (by decide)⟩

/-- C12: starting from the initial empty state with a capacity of zero or less,
along every finite sequence of acquire and release calls every
`acquireDecoderSlot` returns false and the owner set stays empty; and in any
reachable state whose capacity is zero or less, `acquireDecoderSlot` for any
camera not currently holding returns false. -/
theorem C12_non_positive_capacity_never_admits (capacity : Int) (calls : List Call) :
    (capacity ≤ 0 → (∀ c ∈ calls, c.isAcquireOrRelease = true) →
      (∀ b ∈ acquireResults (initial capacity) calls, b = false) ∧
      (run (initial capacity) calls).hw_decoder_cameras_ = ∅) ∧
    ((run (initial capacity) calls).max_hw_decoders_ ≤ 0 →
      ∀ x, x ∉ (run (initial capacity) calls).hw_decoder_cameras_ →
        (acquireDecoderSlot (run (initial capacity) calls) x).1 = false) := by
  refine ⟨fun hcap hcs => ?_, fun hmax x hx => ?_⟩
  · have hgen : ∀ (cs : List Call) (m : NvJpegDecoderManager),
        (∀ c ∈ cs, c.isAcquireOrRelease = true) → m.hw_decoder_cameras_ = ∅ →
        m.max_hw_decoders_ ≤ m.active_hw_decoders_ →
        (∀ b ∈ acquireResults m cs, b = false) ∧ (run m cs).hw_decoder_cameras_ = ∅ := by
      intro cs
      induction cs with
      | nil => intro m _ he _; exact ⟨by simp [acquireResults], he⟩
      | cons c cs ih =>
        intro m hall he hfull
        have hrest : ∀ d ∈ cs, d.isAcquireOrRelease = true :=
          fun d hd => hall d (List.mem_cons_of_mem c hd)
        have hc := hall c (List.mem_cons_self c cs)
        rw [run_cons]
        cases c with
        | acquire x =>
          have hx : x ∉ m.hw_decoder_cameras_ := by simp [he]
          have hstep : step m (Call.acquire x) = m := by
            simp only [step, acquire_denied hx hfull]
          simp only [acquireResults, hstep, acquire_denied hx hfull, List.mem_cons]
          obtain ⟨h1, h2⟩ := ih m hrest he hfull
          exact ⟨fun b hb => hb.elim id (h1 b), h2⟩
        | release x =>
          have hx : x ∉ m.hw_decoder_cameras_ := by simp [he]
          have hstep : step m (Call.release x) = m := by
            simp only [step, release_of_not_mem hx]
          simp only [acquireResults, hstep]
          exact ih m hrest he hfull
        | isAvailable x => simp [Call.isAcquireOrRelease] at hc
        | getMax => simp [Call.isAcquireOrRelease] at hc
        | setMax n => simp [Call.isAcquireOrRelease] at hc
    exact hgen calls (initial capacity) hcs rfl (by simpa [initial] using hcap)
  · have hnn := active_nonneg_of_countMatches
      (countMatches_run calls _ (countMatches_initial capacity))
    rw [acquire_denied hx (le_trans hmax hnn)]

/-- Witness for C12: capacity 0 with two acquires and a release, and the state
reached from capacity 1 by an acquire of "cam1" and an override to -1, where
"cam2" is denied. -/
theorem C12_non_positive_capacity_never_admits_witness :
    ((0 : Int) ≤ 0 ∧
      (∀ c ∈ [Call.acquire "cam1", Call.release "cam1", Call.acquire "cam2"],
        c.isAcquireOrRelease = true) ∧
      (∀ b ∈ acquireResults (initial 0)
          [Call.acquire "cam1", Call.release "cam1", Call.acquire "cam2"], b = false) ∧
      (run (initial 0)
        [Call.acquire "cam1", Call.release "cam1", Call.acquire "cam2"]).hw_decoder_cameras_
        = ∅) ∧
    ((run (initial 1) [Call.acquire "cam1", Call.setMax (-1)]).max_hw_decoders_ ≤ 0 ∧
      "cam2" ∉ (run (initial 1) [Call.acquire "cam1", Call.setMax (-1)]).hw_decoder_cameras_ ∧
      (acquireDecoderSlot (run (initial 1) [Call.acquire "cam1", Call.setMax (-1)]) "cam2").1
        = false) :=
  ⟨⟨by decide, by decide,
      (C12_non_positive_capacity_never_admits 0
        [Call.acquire "cam1", Call.release "cam1", Call.acquire "cam2"]).1
        (by decide) (by decide)⟩,
    ⟨by decide, by decide,
      (C12_non_positive_capacity_never_admits 1 [Call.acquire "cam1", Call.setMax (-1)]).2
        (by decide) "cam2" (by decide)⟩⟩

/-- C13: in every state in which camera `x` is holding, camera `y` is not and
the active count is at most the capacity, `releaseDecoderSlot x` followed by
`acquireDecoderSlot y` returns true; afterwards `y` is holding, `x` is not, and
the holding status of every other camera is unchanged. -/
theorem C13_released_slot_reusable (m : NvJpegDecoderManager) (x y : String)
    (hx : x ∈ m.hw_decoder_cameras_) (hy : y ∉ m.hw_decoder_cameras_)
    (hcap : m.active_hw_decoders_ ≤ m.max_hw_decoders_) :
    (acquireDecoderSlot (releaseDecoderSlot m x) y).1 = true ∧
    isHardwareDecodingAvailable (acquireDecoderSlot (releaseDecoderSlot m x) y).2 y = true ∧
    isHardwareDecodingAvailable (acquireDecoderSlot (releaseDecoderSlot m x) y).2 x = false ∧
    ∀ z, z ≠ x → z ≠ y →
      isHardwareDecodingAvailable (acquireDecoderSlot (releaseDecoderSlot m x) y).2 z
        = isHardwareDecodingAvailable m z := by
  have hxy : x ≠ y := fun h => hy (h ▸ hx)
  have hy2 : y ∉ (releaseDecoderSlot m x).hw_decoder_cameras_ := by
    rw [mem_release_iff]; exact fun h => hy h.2
  have hroom : (releaseDecoderSlot m x).active_hw_decoders_
      < (releaseDecoderSlot m x).max_hw_decoders_ := by
    rw [release_of_mem hx]
    simp only
    omega
  have hgrant : (acquireDecoderSlot (releaseDecoderSlot m x) y).1 = true := by
    rw [acquire_of_room hy2 hroom]
  refine ⟨hgrant, ?_, ?_, ?_⟩
  · simp only [isHardwareDecodingAvailable, decide_eq_true_eq, mem_acquire_iff]
    exact Or.inr ⟨trivial, hgrant⟩
  · simp only [isHardwareDecodingAvailable, decide_eq_false_iff_not, mem_acquire_iff,
      mem_release_iff]
    rintro (h | h)
    · exact h.1 rfl
    · exact hxy h.1
  · intro z hzx hzy
    simp only [isHardwareDecodingAvailable, mem_acquire_iff, mem_release_iff, hzx, hzy,
      ne_eq, not_false_eq_true, true_and, false_and, or_false]

/-- Witness for C13, the scenario with capacity 2: "cam1" and "cam2" are
granted, "cam3" is denied; after the release of "cam1" the acquire of "cam3" is
granted, "cam2" is holding and "cam1" is not. -/
theorem C13_released_slot_reusable_witness :
    (acquireAll (initial 2) ["cam1", "cam2", "cam3"]).1 = [true, true, false] ∧
    "cam1" ∈ (acquireAll (initial 2) ["cam1", "cam2", "cam3"]).2.hw_decoder_cameras_ ∧
    "cam3" ∉ (acquireAll (initial 2) ["cam1", "cam2", "cam3"]).2.hw_decoder_cameras_ ∧
    (acquireAll (initial 2) ["cam1", "cam2", "cam3"]).2.active_hw_decoders_
      ≤ (acquireAll (initial 2) ["cam1", "cam2", "cam3"]).2.max_hw_decoders_ ∧
    (acquireDecoderSlot
      (releaseDecoderSlot (acquireAll (initial 2) ["cam1", "cam2", "cam3"]).2 "cam1")
      "cam3").1 = true ∧
    isHardwareDecodingAvailable (acquireDecoderSlot
      (releaseDecoderSlot (acquireAll (initial 2) ["cam1", "cam2", "cam3"]).2 "cam1")
      "cam3").2 "cam2" = true ∧
    isHardwareDecodingAvailable (acquireDecoderSlot
      (releaseDecoderSlot (acquireAll (initial 2) ["cam1", "cam2", "cam3"]).2 "cam1")
      "cam3").2 "cam1" = false :=
  ⟨by decide, by decide, by decide, by decide,
    (C13_released_slot_reusable (acquireAll (initial 2) ["cam1", "cam2", "cam3"]).2
      "cam1" "cam3" (by decide) (by decide) (by decide)).1,
    by decide,
    (C13_released_slot_reusable (acquireAll (initial 2) ["cam1", "cam2", "cam3"]).2
      "cam1" "cam3" (by decide) (by decide) (by decide)).2.2.1⟩

/-- C18: for all cameras `x` and `y` that differ, `isHardwareDecodingAvailable y`
has the same value before and after `acquireDecoderSlot x`, and before and
after `releaseDecoderSlot x`. -/
theorem C18_other_owner_untouched (m : NvJpegDecoderManager) (x y : String) (hxy : x ≠ y) :
    isHardwareDecodingAvailable (acquireDecoderSlot m x).2 y
      = isHardwareDecodingAvailable m y ∧
    isHardwareDecodingAvailable (releaseDecoderSlot m x) y
      = isHardwareDecodingAvailable m y := by
  have hyx : y ≠ x := fun h => hxy h.symm
  constructor
  · simp only [isHardwareDecodingAvailable, mem_acquire_iff, hyx, false_and, or_false]
  · simp only [isHardwareDecodingAvailable, mem_release_iff, hyx, ne_eq, not_false_eq_true,
      true_and]

/-- Witness for C18: "cam1" holds the only slot; "cam2" is denied and then
releases, and the status of "cam1" does not change. -/
theorem C18_other_owner_untouched_witness :
    "cam2" ≠ "cam1" ∧
    (isHardwareDecodingAvailable
        (acquireDecoderSlot (acquireDecoderSlot (initial 1) "cam1").2 "cam2").2 "cam1"
      = isHardwareDecodingAvailable (acquireDecoderSlot (initial 1) "cam1").2 "cam1" ∧
    isHardwareDecodingAvailable
        (releaseDecoderSlot (acquireDecoderSlot (initial 1) "cam1").2 "cam2") "cam1"
      = isHardwareDecodingAvailable (acquireDecoderSlot (initial 1) "cam1").2 "cam1") :=
  ⟨by decide,
    C18_other_owner_untouched (acquireDecoderSlot (initial 1) "cam1").2 "cam2" "cam1"
      (by decide)⟩

/-- C19: in every state reachable from the initial empty state, whatever values
are passed to `setMaxHardwareDecoders`, the active count is never negative and
never exceeds the largest capacity that has been in effect so far (the initial
one or any value passed to `setMaxHardwareDecoders`), taken as 0 if all of them
were negative. -/
theorem C19_active_bounded_by_largest_capacity (capacity : Int) (calls : List Call) :
    0 ≤ (run (initial capacity) calls).active_hw_decoders_ ∧
    (run (initial capacity) calls).active_hw_decoders_ ≤ largestCapacity capacity calls :=
  ⟨active_nonneg_of_countMatches (countMatches_run calls _ (countMatches_initial capacity)),
    largest_run calls (initial capacity) (max 0 capacity)
      ⟨le_max_left _ _, le_max_right _ _⟩⟩

/-- C20: in every state in which camera `x` is holding and for every `k`, `k`
further `acquireDecoderSlot x` calls followed by one `releaseDecoderSlot x` leave
`x` not holding and the active count exactly one lower than before, with the
holding status of every other camera unchanged. -/
theorem C20_slots_not_reference_counted (m : NvJpegDecoderManager) (x : String) (k : Nat)
    (hx : x ∈ m.hw_decoder_cameras_) :
    isHardwareDecodingAvailable
      (run m (List.replicate k (Call.acquire x) ++ [Call.release x])) x = false ∧
    (run m (List.replicate k (Call.acquire x) ++ [Call.release x])).active_hw_decoders_
      = m.active_hw_decoders_ - 1 ∧
    ∀ y, y ≠ x →
      isHardwareDecodingAvailable
        (run m (List.replicate k (Call.acquire x) ++ [Call.release x])) y
        = isHardwareDecodingAvailable m y := by
  have hrun : run m (List.replicate k (Call.acquire x) ++ [Call.release x])
      = releaseDecoderSlot m x := by
    rw [run_append, run_replicate_acquire hx k]
    rfl
  rw [hrun]
  refine ⟨?_, ?_, ?_⟩
  · simp [isHardwareDecodingAvailable, mem_release_iff]
  · rw [release_of_mem hx]
  · intro y hy
    simp only [isHardwareDecodingAvailable, mem_release_iff, hy, ne_eq, not_false_eq_true,
      true_and]

/-- Witness for C20: "cam1" and "cam2" hold the two slots, "cam1" acquires three
more times and releases once. -/
theorem C20_slots_not_reference_counted_witness :
    "cam1" ∈ (acquireAll (initial 2) ["cam1", "cam2"]).2.hw_decoder_cameras_ ∧
    (isHardwareDecodingAvailable
      (run (acquireAll (initial 2) ["cam1", "cam2"]).2
        (List.replicate 3 (Call.acquire "cam1") ++ [Call.release "cam1"])) "cam1" = false ∧
    (run (acquireAll (initial 2) ["cam1", "cam2"]).2
        (List.replicate 3 (Call.acquire "cam1") ++ [Call.release "cam1"])).active_hw_decoders_
      = (acquireAll (initial 2) ["cam1", "cam2"]).2.active_hw_decoders_ - 1 ∧
    ∀ y, y ≠ "cam1" →
      isHardwareDecodingAvailable
        (run (acquireAll (initial 2) ["cam1", "cam2"]).2
          (List.replicate 3 (Call.acquire "cam1") ++ [Call.release "cam1"])) y
        = isHardwareDecodingAvailable (acquireAll (initial 2) ["cam1", "cam2"]).2 y) :=
  ⟨by decide,
    C20_slots_not_reference_counted (acquireAll (initial 2) ["cam1", "cam2"]).2 "cam1" 3
      (by decide)⟩

/-- C14: the capacity chosen by the constructor is always at least 1; it is 2
exactly when the model file could be opened and the model string read from it
contains "Orin" or "Xavier" as a substring, and 1 in every other case. -/
theorem C14_detected_capacity (devicetree : Option String) :
    1 ≤ getMaxHardwareDecoders (NvJpegDecoderManager.NvJpegDecoderManager devicetree) ∧
    (getMaxHardwareDecoders (NvJpegDecoderManager.NvJpegDecoderManager devicetree) = 2 ↔
      ∃ content, devicetree = some content ∧
        ("Orin".toList <:+: (getline content).toList ∨
          "Xavier".toList <:+: (getline content).toList)) ∧
    ((¬ ∃ content, devicetree = some content ∧
        ("Orin".toList <:+: (getline content).toList ∨
          "Xavier".toList <:+: (getline content).toList)) →
      getMaxHardwareDecoders (NvJpegDecoderManager.NvJpegDecoderManager devicetree) = 1) := by
  cases devicetree with
  | none => simp [NvJpegDecoderManager.NvJpegDecoderManager, getMaxHardwareDecoders]
  | some content =>
    simp only [NvJpegDecoderManager.NvJpegDecoderManager, getMaxHardwareDecoders,
      Option.some.injEq, exists_eq_left', ← string_find_isSome_iff]
    by_cases h1 : (string_find (getline content) "Orin").isSome = true
    · simp [h1]
    · by_cases h2 : (string_find (getline content) "Xavier").isSome = true
      · simp [h1, h2]
      · by_cases h3 : ((string_find (getline content) "Nano").isSome
            || (string_find (getline content) "TX2").isSome) = true
        · simp only [h1, h2, h3, if_true, Bool.false_eq_true, if_false]
          simp
        · simp only [h1, h2, h3, Bool.false_eq_true, if_false]
          simp

/-- Witness for C14: a model file naming an Orin board. -/
theorem C14_detected_capacity_witness :
    getMaxHardwareDecoders
      (NvJpegDecoderManager.NvJpegDecoderManager (some "NVIDIA Orin")) = 2 :=
  (C14_detected_capacity (some "NVIDIA Orin")).2.1.mpr
    ⟨"NVIDIA Orin", rfl, Or.inl ⟨"NVIDIA ".toList, [], by decide⟩⟩

/-- C17: for every finite sequence of calls from the initial empty state and
every camera `x`, `isHardwareDecodingAvailable x` at the end is true if and only
if the sequence contains an `acquireDecoderSlot x` that returned true with no
`releaseDecoderSlot x` after it; and a call of `isHardwareDecodingAvailable`
leaves the state as it was. -/
theorem C17_holding_iff_standing_grant (capacity : Int) (calls : List Call) (x : String) :
    (isHardwareDecodingAvailable (run (initial capacity) calls) x = true ↔
      ∃ pre post, calls = pre ++ Call.acquire x :: post ∧
        (acquireDecoderSlot (run (initial capacity) pre) x).1 = true ∧
        Call.release x ∉ post) ∧
    ∀ (m : NvJpegDecoderManager) (y : String), step m (Call.isAvailable y) = m := by
  refine ⟨?_, fun _ _ => rfl⟩
  simp only [isHardwareDecodingAvailable, decide_eq_true_eq]
  rw [mem_run_iff x calls (initial capacity)]
  simp [initial]

/-- C16 fails on the code: `getMaxHardwareDecoders` reads `max_hw_decoders_`
without holding `mutex_`, in every state, whereas `acquireDecoderSlot`,
`releaseDecoderSlot`, `isHardwareDecodingAvailable` and `setMaxHardwareDecoders`
access it only with the mutex held. -/
theorem C16_getter_reads_capacity_without_lock :
    (∀ m : NvJpegDecoderManager,
      accessesUnderLock Member.max_hw_decoders_ false (events m Call.getMax) = false) ∧
    (∀ (m : NvJpegDecoderManager) (x : String),
      accessesUnderLock Member.max_hw_decoders_ false (events m (Call.acquire x)) = true ∧
      accessesUnderLock Member.max_hw_decoders_ false (events m (Call.release x)) = true ∧
      accessesUnderLock Member.max_hw_decoders_ false (events m (Call.isAvailable x)) = true) ∧
    (∀ (m : NvJpegDecoderManager) (n : Int),
      accessesUnderLock Member.max_hw_decoders_ false (events m (Call.setMax n)) = true) := by
  refine ⟨fun m => rfl, fun m x => ⟨?_, ?_, rfl⟩, fun m n => rfl⟩
  · simp only [events]
    split_ifs <;> rfl
  · simp only [events]
    split_ifs <;> rfl

/-- C15: `n` threads each call `acquireDecoderSlot` once, for pairwise distinct
cameras, on a fresh manager whose capacity is at least zero and below `n`.
Under every interleaving of their steps: the active count never exceeds the
capacity; as long as some thread has not returned some thread can move, and no
interleaving has more than `6 * n` steps, so all calls return; and once all have
returned, exactly capacity-many returned true, all the others returned false,
and the size of the owner set equals the active count. -/
theorem C15_concurrent_acquire_admits_capacity (n : Nat) (cams : Fin n → String)
    (hinj : Function.Injective cams) (capacity : Int) (hcap : 0 ≤ capacity)
    (hlt : capacity < (n : Int)) (sched : List (Fin n)) (t : Threads n)
    (hexec : execute cams (startThreads n capacity) sched = some t) :
    t.shared.active_hw_decoders_ ≤ capacity ∧
    sched.length ≤ 6 * n ∧
    (allReturned t = false → ∃ i, (threadStep cams t i).isSome = true) ∧
    (allReturned t = true →
      ((granted t).card : Int) = capacity ∧
      ((denied t).card : Int) = (n : Int) - capacity ∧
      (t.shared.hw_decoder_cameras_.card : Int) = t.shared.active_hw_decoders_) := by
  have hinv : ThreadsInv cams capacity t :=
    threadsInv_execute hinj sched _ t (threadsInv_start cams capacity hcap) hexec
  have hlen := stepsLeft_execute sched _ t hexec
  rw [stepsLeft_start] at hlen
  exact ⟨hinv.le_cap, by omega, thread_can_move hinv,
    counts_when_all_returned hinj hinv hlt⟩


/-- Witness for C15: two threads for "cam1" and "cam2" against capacity 1; the
second thread runs its six steps and is granted, then the first runs its four
and is denied. -/
theorem C15_concurrent_acquire_admits_capacity_witness :
    Function.Injective twoCameras ∧ (0 : Int) ≤ 1 ∧ (1 : Int) < ((2 : Nat) : Int) ∧
    execute twoCameras (startThreads 2 1) secondThenFirst = some secondThenFirstEnd ∧
    allReturned secondThenFirstEnd = true ∧
    secondThenFirstEnd.pc 0 = Pc.done false ∧ secondThenFirstEnd.pc 1 = Pc.done true ∧
    (((granted secondThenFirstEnd).card : Int) = 1 ∧
      ((denied secondThenFirstEnd).card : Int) = ((2 : Nat) : Int) - 1 ∧
      (secondThenFirstEnd.shared.hw_decoder_cameras_.card : Int)
        = secondThenFirstEnd.shared.active_hw_decoders_) :=
  ⟨by decide, by decide, by decide,
    execute_eq_some_getD twoCameras _ _ secondThenFirst (by decide),
    by decide, by decide, by decide,
    (C15_concurrent_acquire_admits_capacity 2 twoCameras (by decide) 1 (by decide)
      (by decide) secondThenFirst secondThenFirstEnd
      (execute_eq_some_getD twoCameras _ _ secondThenFirst (by decide))).2.2.2 (by decide)⟩

end orbbec_camera
